import Mathlib

/-!
# RuleBasedPCG: cellular-automata smoother and drunk-agent carver

A shallow embedding of `src/RuleBasedPCG.cpp`.

Modelling conventions.

* `Map` (`std::vector<std::vector<int>>`) is a list of rows, each a list of integers.
* C++ `int` is `Int`.  The counters `count` and `total` of the smoother overflow from
  `R = 23170` on; they wrap modulo `2^32` (`wrapInt32`), which is what the compiled
  program does.  Loop variables and coordinates are plain `Int`: for `R < 2^31 - 1` the
  loop variables stay in the `int` range, and a neighbour coordinate that would leave
  it fails the bounds test whether it wraps or not.  The carver's arithmetic stays
  inside the range for every grid that fits in memory.
* C++ `double` is `ℚ`: every finite double is a rational, so thresholds and
  probabilities are rationals.  The quotient `(double)count / total` is the exact
  quotient rounded to binary64 (`roundBinary64`; the conversions of the two `int`
  values are exact and the quotient of two nonzero `int` values is in the normal
  range).  A zero divisor is modelled explicitly in `ratioGt`.  The probability updates
  of the carver are taken over exact rationals.
* `m[x][y]` on a vector is only defined inside the vector.  `getCell` reads `0` and
  `setCell` does nothing outside it; the statements below use them on grids of the
  declared dimensions, where every executed access is inside the vector.
* A `for` loop over an integer interval is a left fold over `forRange`.
* The random source is an arbitrary stream of draws (`Rng`).
-/

namespace RuleBasedPCG

/-! ## Grid -/

/-- The type `Map` of the program: a vector of rows. -/
abbrev Map := List (List Int)

/-- Read `m[x][y]`. -/
def getCell (m : Map) (x y : Int) : Int :=
  if 0 ≤ x ∧ 0 ≤ y then (m.getD x.toNat []).getD y.toNat 0 else 0

/-- Assignment `m[x][y] = v`. -/
def setCell (m : Map) (x y v : Int) : Map :=
  if 0 ≤ x ∧ 0 ≤ y then m.set x.toNat ((m.getD x.toNat []).set y.toNat v) else m

/-- The values `lo, lo+1, ..., hi-1` taken by `i` in `for (int i = lo; i < hi; ++i)`. -/
def forRange (lo hi : Int) : List Int :=
  (List.range (hi - lo).toNat).map (fun (i : Nat) => lo + (i : Int))

/-- The bounds test `nx < 0 || nx >= H || ny < 0 || ny >= W`. -/
def outOfBounds (W H nx ny : Int) : Bool :=
  decide (nx < 0) || decide (nx ≥ H) || decide (ny < 0) || decide (ny ≥ W)

/-! ## Cellular-automata smoother -/

/-- The value of a 32-bit `int` holding the arithmetic result `z`: `z` reduced modulo
`2^32` into `[-2^31, 2^31)`. -/
def wrapInt32 (z : Int) : Int :=
  (z + 2 ^ 31) % 2 ^ 32 - 2 ^ 31

/-- Rounding of a rational to the nearest integer, ties to the even one. -/
def roundHalfEven (m : ℚ) : Int :=
  if m - (⌊m⌋ : ℚ) < 1 / 2 then ⌊m⌋
  else if 1 / 2 < m - (⌊m⌋ : ℚ) then ⌊m⌋ + 1
  else if ⌊m⌋ % 2 = 0 then ⌊m⌋ else ⌊m⌋ + 1

/-- Rounding of a rational to binary64 in the normal range: the significand at the
exponent `⌊log₂ |q|⌋` is rounded to 53 bits, to nearest, ties to even. -/
def roundBinary64 (q : ℚ) : ℚ :=
  (roundHalfEven (q * 2 ^ (52 - Int.log 2 |q|)) : ℚ) * 2 ^ (Int.log 2 |q| - 52)

/-- One execution of the body of the `dy` loop: updates the `int` pair
`(count, total)`. -/
def neighbourStep (m : Map) (W H x y dx : Int) (acc : Int × Int) (dy : Int) : Int × Int :=
  let nx := x + dx
  let ny := y + dy
  if outOfBounds W H nx ny then (wrapInt32 (acc.1 + 1), wrapInt32 (acc.2 + 1))
  else (wrapInt32 (acc.1 + getCell m nx ny), wrapInt32 (acc.2 + 1))

/-- The two nested offset loops `dx, dy = -R .. R` around cell `(x, y)`, started from
`count = 0, total = 0`; returns `(count, total)`. -/
def neighbourhood (m : Map) (W H R x y : Int) : Int × Int :=
  (forRange (-R) (R + 1)).foldl
    (fun acc dx => (forRange (-R) (R + 1)).foldl (neighbourStep m W H x y dx) acc)
    (0, 0)

/-- The test `ratio > U` for `double ratio = (double)count / total`: the quotient is
rounded to binary64 and compared with `U`.  With a zero divisor IEEE division gives NaN
for `0/0` (every comparison false), `+inf` for a positive dividend (greater than every
finite `U`) and `-inf` for a negative one. -/
def ratioGt (count total : Int) (U : ℚ) : Bool :=
  if total = 0 then decide (0 < count)
  else decide (roundBinary64 ((count : ℚ) / (total : ℚ)) > U)

/-- The value `(ratio > U) ? 1 : 0` computed for cell `(x, y)` reading grid `m`. -/
def cellValue (m : Map) (W H R : Int) (U : ℚ) (x y : Int) : Int :=
  let ct := neighbourhood m W H R x y
  if ratioGt ct.1 ct.2 U then 1 else 0

/-- The function `cellularAutomata`: every cell value is computed from `currentMap` and
written to the copy `newMap`. -/
def cellularAutomata (currentMap : Map) (W H R : Int) (U : ℚ) : Map :=
  (forRange 0 H).foldl
    (fun newMap x => (forRange 0 W).foldl
      (fun newMap y => setCell newMap x y (cellValue currentMap W H R U x y)) newMap)
    currentMap

/-- The function `cellularAutomataInPlace`: every cell value is computed from the grid
being updated and written back to it. -/
def cellularAutomataInPlace (map : Map) (W H R : Int) (U : ℚ) : Map :=
  (forRange 0 H).foldl
    (fun map x => (forRange 0 W).foldl
      (fun map y => setCell map x y (cellValue map W H R U x y)) map)
    map

/-! ## Drunk-agent carver -/

/-- One use of the random source.  The program reads the generator directly
(`rng()`), through `dirDist` (an integer in `0..3`) and through `probDist` (a real);
a draw carries the value each of the three readings would return. -/
structure Draw where
  raw : Nat
  dir : Fin 4
  prob : ℚ

/-- The random source of one call: the sequence of its draws. -/
abbrev Rng := Nat → Draw

/-- The table `int dx[4] = {-1, 1, 0, 0}`. -/
def dx : Fin 4 → Int
  | 0 => -1
  | 1 => 1
  | 2 => 0
  | 3 => 0

/-- The table `int dy[4] = {0, 0, -1, 1}`. -/
def dy : Fin 4 → Int
  | 0 => 0
  | 1 => 0
  | 2 => -1
  | 3 => 1

/-- The parameters of `drunkAgent` that stay fixed during a call. -/
structure Params where
  W : Int
  H : Int
  J : Int
  I : Int
  roomSizeX : Int
  roomSizeY : Int
  probGenerateRoom : ℚ
  probIncreaseRoom : ℚ
  probChangeDirection : ℚ
  probIncreaseChange : ℚ

/-- The variables of `drunkAgent` that change during a call.  `k` counts the draws
taken so far.  `writes` and `visited` are history variables, not program state:
`writes` lists the index pair of every executed assignment `newMap[x][y] = 1` and
`visited` the agent position at the start of every executed inner step, most recent
first. -/
structure AgentState where
  newMap : Map
  agentX : Int
  agentY : Int
  roomProb : ℚ
  dirProb : ℚ
  dir : Fin 4
  k : Nat
  writes : List (Int × Int)
  visited : List (Int × Int)

/-- The test `agentX >= 0 && agentX < H && agentY >= 0 && agentY < W`. -/
def inBounds (W H x y : Int) : Bool :=
  decide (x ≥ 0) && decide (x < H) && decide (y ≥ 0) && decide (y < W)

/-- The assignment `newMap[x][y] = 1`. -/
def writeOne (s : AgentState) (x y : Int) : AgentState :=
  { s with newMap := setCell s.newMap x y 1, writes := (x, y) :: s.writes }

/-- The statement `if (agent in bounds) newMap[agentX][agentY] = 1;`. -/
def markStep (P : Params) (s : AgentState) : AgentState :=
  if inBounds P.W P.H s.agentX s.agentY then writeOne s s.agentX s.agentY else s

/-- The room stamp: the two nested loops over `x = rx .. rxe-1`, `y = ry .. rye-1`. -/
def stampRoom (P : Params) (s : AgentState) : AgentState :=
  let rx := max 0 (s.agentX - Int.tdiv P.roomSizeX 2)
  let ry := max 0 (s.agentY - Int.tdiv P.roomSizeY 2)
  let rxe := min P.H (rx + P.roomSizeX)
  let rye := min P.W (ry + P.roomSizeY)
  (forRange rx rxe).foldl
    (fun s x => (forRange ry rye).foldl (fun s y => writeOne s x y) s) s

/-- The statement `if (probDist(rng) < roomProb) { stamp } else { raise roomProb }`. -/
def roomStep (P : Params) (rng : Rng) (s : AgentState) : AgentState :=
  if (rng s.k).prob < s.roomProb then
    { stampRoom P s with roomProb := P.probGenerateRoom, k := s.k + 1 }
  else
    { s with roomProb := min 1 (s.roomProb + P.probIncreaseRoom), k := s.k + 1 }

/-- The statement `if (probDist(rng) < dirProb) { new dir } else { raise dirProb }`. -/
def dirStep (P : Params) (rng : Rng) (s : AgentState) : AgentState :=
  if (rng s.k).prob < s.dirProb then
    { s with dir := (rng (s.k + 1)).dir, dirProb := P.probChangeDirection, k := s.k + 2 }
  else
    { s with dirProb := min 1 (s.dirProb + P.probIncreaseChange), k := s.k + 1 }

/-- The end of the inner loop body: compute `(nx, ny)`, then redraw the direction and
`break` (second component `true`) or move the agent (second component `false`). -/
def moveStep (P : Params) (rng : Rng) (s : AgentState) : AgentState × Bool :=
  let nx := s.agentX + dx s.dir
  let ny := s.agentY + dy s.dir
  if outOfBounds P.W P.H nx ny then
    ({ s with dir := (rng s.k).dir, k := s.k + 1 }, true)
  else
    ({ s with agentX := nx, agentY := ny }, false)

/-- One execution of the body of the inner loop; the flag tells whether it ended in
`break`. -/
def innerStep (P : Params) (rng : Rng) (s : AgentState) : AgentState × Bool :=
  let s0 := { s with visited := (s.agentX, s.agentY) :: s.visited }
  moveStep P rng (dirStep P rng (roomStep P rng (markStep P s0)))

/-- The inner loop `for (int i = 0; i < I; ++i)` with `n` iterations left. -/
def innerLoop (P : Params) (rng : Rng) : Nat → AgentState → AgentState
  | 0, s => s
  | n + 1, s =>
    let r := innerStep P rng s
    if r.2 then r.1 else innerLoop P rng n r.1

/-- The outer loop `for (int j = 0; j < J; ++j)` with `n` iterations left. -/
def outerLoop (P : Params) (rng : Rng) : Nat → AgentState → AgentState
  | 0, s => s
  | n + 1, s => outerLoop P rng n (innerLoop P rng P.I.toNat s)

/-- The prologue of `drunkAgent`: copy the map, reseed an out-of-bounds agent
(`agentX = rng() % H; agentY = rng() % W;`, where for `H, W > 0` the unsigned remainder
is the mathematical one), set the probabilities and draw the first direction. -/
def initAgent (currentMap : Map) (P : Params) (agentX agentY : Int) (rng : Rng) :
    AgentState :=
  if outOfBounds P.W P.H agentX agentY then
    { newMap := currentMap
      agentX := ((rng 0).raw : Int) % P.H
      agentY := ((rng 1).raw : Int) % P.W
      roomProb := P.probGenerateRoom
      dirProb := P.probChangeDirection
      dir := (rng 2).dir
      k := 3
      writes := []
      visited := [] }
  else
    { newMap := currentMap
      agentX := agentX
      agentY := agentY
      roomProb := P.probGenerateRoom
      dirProb := P.probChangeDirection
      dir := (rng 0).dir
      k := 1
      writes := []
      visited := [] }

/-- The function `drunkAgent`.  The returned state holds the returned map (`newMap`)
and the agent position left in the reference parameters (`agentX`, `agentY`). -/
def drunkAgent (currentMap : Map) (W H J I roomSizeX roomSizeY : Int)
    (probGenerateRoom probIncreaseRoom probChangeDirection probIncreaseChange : ℚ)
    (agentX agentY : Int) (rng : Rng) : AgentState :=
  let P : Params :=
    { W := W, H := H, J := J, I := I, roomSizeX := roomSizeX, roomSizeY := roomSizeY
      probGenerateRoom := probGenerateRoom, probIncreaseRoom := probIncreaseRoom
      probChangeDirection := probChangeDirection
      probIncreaseChange := probIncreaseChange }
  outerLoop P rng J.toNat (initAgent currentMap P agentX agentY rng)

/-! ## Generation loop of `main` -/

/-- What the loop of `main` carries from one iteration to the next. -/
structure LoopState where
  myMap : Map
  drunkAgentX : Int
  drunkAgentY : Int

/-- One iteration of the loop of `main`, with the literals of `main`; `rng` is the
random source that this iteration's call of `drunkAgent` constructs. -/
def mainIteration (rng : Rng) (st : LoopState) : LoopState :=
  let m := cellularAutomataInPlace st.myMap 20 10 1 (1 / 2)
  let r := drunkAgent m 20 10 5 10 5 3 (1 / 10) (1 / 20) (1 / 5) (3 / 100)
    st.drunkAgentX st.drunkAgentY rng
  { myMap := r.newMap, drunkAgentX := r.agentX, drunkAgentY := r.agentY }

/-- The state after the first `n` iterations of the loop of `main`; `rngs i` is the
random source of iteration `i`. -/
def mainLoop (rngs : Nat → Rng) : Nat → LoopState → LoopState
  | 0, st => st
  | n + 1, st => mainIteration (rngs n) (mainLoop rngs n st)

/-! ## Well-formedness -/

/-- A grid with exactly `H` rows of exactly `W` cells. -/
def HasDims (W H : Int) (m : Map) : Prop :=
  (m.length : Int) = H ∧ ∀ row ∈ m, (row.length : Int) = W

/-- Every cell is `0` or `1`. -/
def Binary (m : Map) : Prop :=
  ∀ row ∈ m, ∀ c ∈ row, c = 0 ∨ c = 1

/-- A well-formed grid: `H` rows of `W` cells, each `0` or `1`. -/
def WellFormed (W H : Int) (m : Map) : Prop :=
  HasDims W H m ∧ Binary m

instance (W H : Int) (m : Map) : Decidable (HasDims W H m) := by
  unfold HasDims; infer_instance

instance (m : Map) : Decidable (Binary m) := by
  unfold Binary; infer_instance

instance (W H : Int) (m : Map) : Decidable (WellFormed W H m) := by
  unfold WellFormed; infer_instance


/-! ## Auxiliary definitions used in the statements -/

/-- What one offset adds to `count`. -/
def contribution (m : Map) (W H nx ny : Int) : Int :=
  if outOfBounds W H nx ny then 1 else getCell m nx ny

/-- The smoother's rule in the words of its specification: the active count over the
offsets `[-R, R] × [-R, R]`, where an offset landing outside the grid adds `1` and one
landing inside adds the grid's value there. -/
def specActiveCount (m : Map) (W H R x y : Int) : Int :=
  ∑ d ∈ Finset.Icc (-R) R ×ˢ Finset.Icc (-R) R,
    if 0 ≤ x + d.1 ∧ x + d.1 < H ∧ 0 ≤ y + d.2 ∧ y + d.2 < W then
      getCell m (x + d.1) (y + d.2)
    else 1

/-- The smoother's rule in the words of its specification: the total count, `1` for
every offset of `[-R, R] × [-R, R]`. -/
def specTotalCount (R : Int) : Int :=
  ∑ _d ∈ Finset.Icc (-R) R ×ˢ Finset.Icc (-R) R, 1

/-- The index pair `(x, y)` is a cell of an `H`-row, `W`-column grid: `0 ≤ x < H` (row)
and `0 ≤ y < W` (column). -/
def InGrid (W H x y : Int) : Prop :=
  0 ≤ x ∧ x < H ∧ 0 ≤ y ∧ y < W

instance (W H x y : Int) : Decidable (InGrid W H x y) := by
  unfold InGrid; infer_instance

/-- The invariant of the walk: the map has its dimensions, the agent is in the grid and
every visited cell is active. -/
def WalkInv (P : Params) (s : AgentState) : Prop :=
  HasDims P.W P.H s.newMap ∧
  (0 ≤ s.agentX ∧ s.agentX < P.H ∧ 0 ≤ s.agentY ∧ s.agentY < P.W) ∧
  ∀ p ∈ s.visited, getCell s.newMap p.1 p.2 = 1

/-- The number of offsets of `[-R, R] × [-R, R]` that land outside the grid when applied
to cell `(x, y)`. -/
def specOutOfBoundsCount (W H R x y : Int) : Int :=
  ∑ d ∈ Finset.Icc (-R) R ×ˢ Finset.Icc (-R) R,
    if 0 ≤ x + d.1 ∧ x + d.1 < H ∧ 0 ≤ y + d.2 ∧ y + d.2 < W then 0 else 1

/-- Both probabilities of the carver lie between their base value and `1`. -/
def ProbsInRange (P : Params) (s : AgentState) : Prop :=
  (P.probGenerateRoom ≤ s.roomProb ∧ s.roomProb ≤ 1) ∧
  (P.probChangeDirection ≤ s.dirProb ∧ s.dirProb ≤ 1)

/-! ## Loop ranges -/

theorem mem_forRange (lo hi i : Int) : i ∈ forRange lo hi ↔ lo ≤ i ∧ i < hi := by
  unfold forRange
  simp only [List.mem_map, List.mem_range]
  constructor
  · rintro ⟨n, hn, rfl⟩
    omega
  · rintro ⟨h1, h2⟩
    exact ⟨(i - lo).toNat, by omega, by omega⟩

theorem nodup_forRange (lo hi : Int) : (forRange lo hi).Nodup := by
  unfold forRange
  apply List.Nodup.map _ (List.nodup_range _)
  intro a b h
  simpa using h

theorem length_forRange (lo hi : Int) : (forRange lo hi).length = (hi - lo).toNat := by
  simp [forRange]

/-! ## Rounding to binary64 -/

theorem roundHalfEven_intCast (k : Int) : roundHalfEven (k : ℚ) = k := by
  unfold roundHalfEven
  rw [Int.floor_intCast, sub_self, if_pos (by norm_num)]

theorem floor_le_roundHalfEven (m : ℚ) : ⌊m⌋ ≤ roundHalfEven m := by
  unfold roundHalfEven
  split_ifs <;> omega

theorem roundHalfEven_le_floor_succ (m : ℚ) : roundHalfEven m ≤ ⌊m⌋ + 1 := by
  unfold roundHalfEven
  split_ifs <;> omega

theorem roundHalfEven_mono {m1 m2 : ℚ} (h : m1 ≤ m2) : roundHalfEven m1 ≤ roundHalfEven m2 := by
  have hf : ⌊m1⌋ ≤ ⌊m2⌋ := Int.floor_mono h
  rcases lt_or_eq_of_le hf with hlt | heq
  · have h1 := roundHalfEven_le_floor_succ m1
    have h2 := floor_le_roundHalfEven m2
    omega
  · unfold roundHalfEven
    rw [← heq]
    have hr : m1 - (⌊m1⌋ : ℚ) ≤ m2 - (⌊m1⌋ : ℚ) := by linarith
    split_ifs <;> first | omega | (exfalso; linarith)

theorem log_two_eq {q : ℚ} {e : Int} (h0 : 0 < q) (h1 : (2 : ℚ) ^ e ≤ q)
    (h2 : q < (2 : ℚ) ^ (e + 1)) : Int.log 2 q = e := by
  have a1 : e ≤ Int.log 2 q := by
    rw [← Int.zpow_le_iff_le_log (by norm_num) h0]
    simpa using h1
  have a2 : Int.log 2 q < e + 1 := by
    rw [← Int.lt_zpow_iff_log_lt (by norm_num) h0]
    simpa using h2
  omega

theorem roundBinary64_zero : roundBinary64 0 = 0 := by
  unfold roundBinary64
  rw [zero_mul]
  have : roundHalfEven 0 = 0 := by
    have := roundHalfEven_intCast 0
    simpa using this
  rw [this]
  simp

/-- A positive rational whose significand at its own exponent is an integer is its own
rounding. -/
theorem roundBinary64_eq_self {q : ℚ} (e k : Int) (h0 : 0 < q) (h1 : (2 : ℚ) ^ e ≤ q)
    (h2 : q < (2 : ℚ) ^ (e + 1)) (hk : q * 2 ^ (52 - e) = (k : ℚ)) : roundBinary64 q = q := by
  unfold roundBinary64
  rw [abs_of_pos h0, log_two_eq h0 h1 h2, hk, roundHalfEven_intCast, ← hk, mul_assoc,
    ← zpow_add₀ (by norm_num : (2 : ℚ) ≠ 0)]
  have : 52 - e + (e - 52) = 0 := by ring
  rw [this, zpow_zero, mul_one]

theorem roundBinary64_bounds {q : ℚ} (h0 : 0 < q) :
    (2 : ℚ) ^ Int.log 2 q ≤ roundBinary64 q ∧ roundBinary64 q ≤ (2 : ℚ) ^ (Int.log 2 q + 1) := by
  have h1 : (2 : ℚ) ^ Int.log 2 q ≤ q := by
    simpa using Int.zpow_log_le_self (b := 2) (by norm_num) h0
  have h2 : q < (2 : ℚ) ^ (Int.log 2 q + 1) := by
    simpa using Int.lt_zpow_succ_log_self (b := 2) (by norm_num) q
  have hp : (0 : ℚ) < 2 ^ (52 - Int.log 2 q) := zpow_pos (by norm_num) _
  have hp' : (0 : ℚ) < 2 ^ (Int.log 2 q - 52) := zpow_pos (by norm_num) _
  have two : (2 : ℚ) ≠ 0 := by norm_num
  have m1 : ((2 ^ 52 : Int) : ℚ) ≤ q * 2 ^ (52 - Int.log 2 q) := by
    have : (2 : ℚ) ^ Int.log 2 q * 2 ^ (52 - Int.log 2 q) ≤ q * 2 ^ (52 - Int.log 2 q) :=
      mul_le_mul_of_nonneg_right h1 (le_of_lt hp)
    rw [← zpow_add₀ two] at this
    have e : Int.log 2 q + (52 - Int.log 2 q) = 52 := by ring
    rw [e] at this
    have c : ((2 ^ 52 : Int) : ℚ) = (2 : ℚ) ^ (52 : Int) := by norm_num
    rw [c]
    exact this
  have m2 : q * 2 ^ (52 - Int.log 2 q) ≤ ((2 ^ 53 : Int) : ℚ) := by
    have : q * 2 ^ (52 - Int.log 2 q) ≤ (2 : ℚ) ^ (Int.log 2 q + 1) * 2 ^ (52 - Int.log 2 q) :=
      mul_le_mul_of_nonneg_right (le_of_lt h2) (le_of_lt hp)
    rw [← zpow_add₀ two] at this
    have e : Int.log 2 q + 1 + (52 - Int.log 2 q) = 53 := by ring
    rw [e] at this
    have c : ((2 ^ 53 : Int) : ℚ) = (2 : ℚ) ^ (53 : Int) := by norm_num
    rw [c]
    exact this
  have r1 : (2 ^ 52 : Int) ≤ roundHalfEven (q * 2 ^ (52 - Int.log 2 q)) := by
    have := roundHalfEven_mono m1
    rwa [roundHalfEven_intCast] at this
  have r2 : roundHalfEven (q * 2 ^ (52 - Int.log 2 q)) ≤ (2 ^ 53 : Int) := by
    have := roundHalfEven_mono m2
    rwa [roundHalfEven_intCast] at this
  have r1q : ((2 ^ 52 : Int) : ℚ) ≤ (roundHalfEven (q * 2 ^ (52 - Int.log 2 q)) : ℚ) := by
    exact_mod_cast r1
  have r2q : (roundHalfEven (q * 2 ^ (52 - Int.log 2 q)) : ℚ) ≤ ((2 ^ 53 : Int) : ℚ) := by
    exact_mod_cast r2
  unfold roundBinary64
  rw [abs_of_pos h0]
  constructor
  · have := mul_le_mul_of_nonneg_right r1q (le_of_lt hp')
    have c : ((2 ^ 52 : Int) : ℚ) * 2 ^ (Int.log 2 q - 52) = (2 : ℚ) ^ Int.log 2 q := by
      have c' : ((2 ^ 52 : Int) : ℚ) = (2 : ℚ) ^ (52 : Int) := by norm_num
      rw [c', ← zpow_add₀ two]
      congr 1
      ring
    rw [c] at this
    exact this
  · have := mul_le_mul_of_nonneg_right r2q (le_of_lt hp')
    have c : ((2 ^ 53 : Int) : ℚ) * 2 ^ (Int.log 2 q - 52) = (2 : ℚ) ^ (Int.log 2 q + 1) := by
      have c' : ((2 ^ 53 : Int) : ℚ) = (2 : ℚ) ^ (53 : Int) := by norm_num
      rw [c', ← zpow_add₀ two]
      congr 1
      ring
    rw [c] at this
    exact this

theorem roundBinary64_mono_pos {q1 q2 : ℚ} (h0 : 0 < q1) (h : q1 ≤ q2) :
    roundBinary64 q1 ≤ roundBinary64 q2 := by
  have h0' : 0 < q2 := lt_of_lt_of_le h0 h
  have hl : Int.log 2 q1 ≤ Int.log 2 q2 := Int.log_mono_right h0 h
  rcases lt_or_eq_of_le hl with hlt | heq
  · have b1 := (roundBinary64_bounds h0).2
    have b2 := (roundBinary64_bounds h0').1
    have : (2 : ℚ) ^ (Int.log 2 q1 + 1) ≤ (2 : ℚ) ^ Int.log 2 q2 :=
      zpow_le_zpow_right₀ (by norm_num) (by omega)
    linarith
  · unfold roundBinary64
    rw [abs_of_pos h0, abs_of_pos h0', heq]
    have hp : (0 : ℚ) < 2 ^ (52 - Int.log 2 q2) := zpow_pos (by norm_num) _
    have hp' : (0 : ℚ) < 2 ^ (Int.log 2 q2 - 52) := zpow_pos (by norm_num) _
    have hm := roundHalfEven_mono (mul_le_mul_of_nonneg_right h (le_of_lt hp))
    have hmq : (roundHalfEven (q1 * 2 ^ (52 - Int.log 2 q2)) : ℚ) ≤
        (roundHalfEven (q2 * 2 ^ (52 - Int.log 2 q2)) : ℚ) := by exact_mod_cast hm
    exact mul_le_mul_of_nonneg_right hmq (le_of_lt hp')

theorem roundBinary64_mono {q1 q2 : ℚ} (h0 : 0 ≤ q1) (h : q1 ≤ q2) :
    roundBinary64 q1 ≤ roundBinary64 q2 := by
  rcases lt_or_eq_of_le h0 with hpos | hz
  · exact roundBinary64_mono_pos hpos h
  · rw [← hz, roundBinary64_zero]
    rcases lt_or_eq_of_le (hz ▸ h : (0 : ℚ) ≤ q2) with hpos | hz2
    · exact le_trans (le_of_lt (zpow_pos (by norm_num) _)) (roundBinary64_bounds hpos).1
    · rw [← hz2, roundBinary64_zero]

theorem roundBinary64_one : roundBinary64 1 = 1 :=
  roundBinary64_eq_self 0 (2 ^ 52) (by norm_num) (by norm_num) (by norm_num) (by norm_num)

theorem roundBinary64_half : roundBinary64 (1 / 2) = 1 / 2 :=
  roundBinary64_eq_self (-1) (2 ^ 52) (by norm_num) (by norm_num) (by norm_num) (by norm_num)

theorem roundHalfEven_of_lt_half {m : ℚ} (f : Int) (h1 : (f : ℚ) ≤ m) (h2 : m - (f : ℚ) < 1 / 2) :
    roundHalfEven m = f := by
  have hf : ⌊m⌋ = f := by
    rw [Int.floor_eq_iff]
    constructor
    · exact h1
    · linarith
  unfold roundHalfEven
  rw [hf, if_pos h2]

/-- Rounding down: a positive rational whose significand at its own exponent exceeds
the integer `f` by less than one half rounds to `f` at that exponent. -/
theorem roundBinary64_round_down {q : ℚ} (e f : Int) (h0 : 0 < q) (h1 : (2 : ℚ) ^ e ≤ q)
    (h2 : q < (2 : ℚ) ^ (e + 1)) (hf1 : (f : ℚ) ≤ q * 2 ^ (52 - e))
    (hf2 : q * 2 ^ (52 - e) - (f : ℚ) < 1 / 2) :
    roundBinary64 q = (f : ℚ) * 2 ^ (e - 52) := by
  unfold roundBinary64
  rw [abs_of_pos h0, log_two_eq h0 h1 h2, roundHalfEven_of_lt_half f hf1 hf2]

theorem roundBinary64_three_ninths :
    roundBinary64 (3 / 9) = 6004799503160661 / 18014398509481984 := by
  rw [roundBinary64_round_down (-2) 6004799503160661 (by norm_num) (by norm_num)
    (by norm_num) (by norm_num) (by norm_num)]
  norm_num

theorem roundBinary64_seventeen : roundBinary64 (17 / 32) = 17 / 32 :=
  roundBinary64_eq_self (-1) (17 * 2 ^ 48) (by norm_num) (by norm_num) (by norm_num)
    (by norm_num)

theorem roundBinary64_one_plus : roundBinary64 (1 + 1 / 2 ^ 52) = 1 + 1 / 2 ^ 52 :=
  roundBinary64_eq_self 0 (2 ^ 52 + 1) (by norm_num) (by norm_num) (by norm_num)
    (by norm_num)

/-! ## Reading and writing cells -/

theorem mem_setCell {m : Map} {x y v : Int} {row : List Int} (h : row ∈ setCell m x y v) :
    row ∈ m ∨ ∃ r ∈ m, row = r.set y.toNat v := by
  unfold setCell at h
  split at h
  · by_cases hx : x.toNat < m.length
    · rcases List.mem_or_eq_of_mem_set h with h1 | h1
      · exact Or.inl h1
      · refine Or.inr ⟨m.getD x.toNat [], ?_, h1⟩
        rw [List.getD_eq_getElem _ _ hx]
        exact List.getElem_mem _
    · rw [List.set_eq_of_length_le (by omega)] at h
      exact Or.inl h
  · exact Or.inl h

theorem length_setCell (m : Map) (x y v : Int) : (setCell m x y v).length = m.length := by
  unfold setCell
  split <;> simp

theorem hasDims_setCell {W H : Int} {m : Map} (x y v : Int) (h : HasDims W H m) :
    HasDims W H (setCell m x y v) := by
  refine ⟨by rw [length_setCell]; exact h.1, ?_⟩
  intro row hrow
  rcases mem_setCell hrow with h1 | ⟨r, hr, rfl⟩
  · exact h.2 row h1
  · rw [List.length_set]
    exact h.2 r hr

theorem binary_setCell {m : Map} (x y : Int) {v : Int} (h : Binary m) (hv : v = 0 ∨ v = 1) :
    Binary (setCell m x y v) := by
  intro row hrow c hc
  rcases mem_setCell hrow with h1 | ⟨r, hr, rfl⟩
  · exact h row h1 c hc
  · rcases List.mem_or_eq_of_mem_set hc with h2 | h2
    · exact h r hr c h2
    · rw [h2]; exact hv

theorem wellFormed_setCell {W H : Int} {m : Map} (x y : Int) {v : Int}
    (h : WellFormed W H m) (hv : v = 0 ∨ v = 1) : WellFormed W H (setCell m x y v) :=
  ⟨hasDims_setCell x y v h.1, binary_setCell x y h.2 hv⟩

theorem getCell_setCell_same {W H : Int} {m : Map} {x y : Int} (v : Int) (h : HasDims W H m)
    (hx0 : 0 ≤ x) (hx : x < H) (hy0 : 0 ≤ y) (hy : y < W) :
    getCell (setCell m x y v) x y = v := by
  have hxl : x.toNat < m.length := by have := h.1; omega
  have hyl : y.toNat < (m[x.toNat]).length := by
    have := h.2 _ (List.getElem_mem hxl); omega
  unfold getCell setCell
  simp only [hx0, hy0, and_self, if_true]
  simp [List.getD_eq_getElem?_getD, List.getElem?_set, hxl, hyl]

theorem getCell_setCell_other {m : Map} {x y x' y' : Int} (v : Int) (h : x' ≠ x ∨ y' ≠ y) :
    getCell (setCell m x y v) x' y' = getCell m x' y' := by
  unfold getCell setCell
  by_cases h1 : 0 ≤ x ∧ 0 ≤ y
  · by_cases h2 : 0 ≤ x' ∧ 0 ≤ y'
    · simp only [h1, h2, and_self, if_true]
      by_cases hxx : x' = x
      · subst hxx
        have hyy : y.toNat ≠ y'.toNat := by
          rcases h with h | h
          · exact absurd rfl h
          · omega
        by_cases hxl : x'.toNat < m.length
        · simp [List.getD_eq_getElem?_getD, List.getElem?_set, hxl, hyy]
        · rw [List.set_eq_of_length_le (by omega)]
      · have hne : x.toNat ≠ x'.toNat := by omega
        simp [List.getD_eq_getElem?_getD, List.getElem?_set, hne]
    · simp [h2]
  · simp [h1]

theorem getCell_binary {m : Map} (h : Binary m) (x y : Int) :
    getCell m x y = 0 ∨ getCell m x y = 1 := by
  unfold getCell
  split
  · by_cases hxl : x.toNat < m.length
    · rw [List.getD_eq_getElem _ _ hxl]
      by_cases hyl : y.toNat < (m[x.toNat]).length
      · rw [List.getD_eq_getElem _ _ hyl]
        exact h _ (List.getElem_mem hxl) _ (List.getElem_mem hyl)
      · rw [List.getD_eq_default _ _ (by omega)]
        exact Or.inl rfl
    · rw [List.getD_eq_default m _ (by omega)]
      exact Or.inl rfl
  · exact Or.inl rfl


/-! ## Loops that preserve a property or write fixed values -/

theorem foldl_preserves {α β : Type} (P : α → Prop) (f : α → β → α) (l : List β) (a : α)
    (ha : P a) (hf : ∀ a b, b ∈ l → P a → P (f a b)) : P (l.foldl f a) := by
  induction l generalizing a with
  | nil => exact ha
  | cons b t ih =>
    rw [List.foldl_cons]
    exact ih (f a b) (hf a b (List.mem_cons_self b t) ha)
      (fun a' b' hb' => hf a' b' (List.mem_cons_of_mem b hb'))

theorem getCell_rowLoop {W H : Int} (g : Int → Int) (x : Int) (hx0 : 0 ≤ x) (hx : x < H)
    (ys : List Int) (hys : ∀ y ∈ ys, 0 ≤ y ∧ y < W) (m : Map) (hm : HasDims W H m)
    (x' y' : Int) :
    getCell (ys.foldl (fun a y => setCell a x y (g y)) m) x' y' =
      if x' = x ∧ y' ∈ ys then g y' else getCell m x' y' := by
  induction ys generalizing m with
  | nil => simp
  | cons y t ih =>
    rw [List.foldl_cons, ih (fun z hz => hys z (List.mem_cons_of_mem y hz)) _
      (hasDims_setCell x y (g y) hm)]
    by_cases h1 : x' = x ∧ y' ∈ t
    · have h2 : x' = x ∧ y' ∈ y :: t := ⟨h1.1, List.mem_cons_of_mem y h1.2⟩
      rw [if_pos h1, if_pos h2]
    · rw [if_neg h1]
      by_cases h3 : x' = x ∧ y' = y
      · obtain ⟨rfl, rfl⟩ := h3
        have hy := hys y' (List.mem_cons_self y' t)
        rw [getCell_setCell_same _ hm hx0 hx hy.1 hy.2, if_pos ⟨rfl, List.mem_cons_self y' t⟩]
      · have h4 : ¬ (x' = x ∧ y' ∈ y :: t) := by
          rintro ⟨hx', hy'⟩
          rcases List.mem_cons.mp hy' with h5 | h5
          · exact h3 ⟨hx', h5⟩
          · exact h1 ⟨hx', h5⟩
        rw [if_neg h4, getCell_setCell_other]
        by_contra hc
        push_neg at hc
        exact h3 hc

theorem hasDims_rowLoop {W H : Int} (g : Map → Int → Int) (x : Int) (ys : List Int) (m : Map)
    (hm : HasDims W H m) :
    HasDims W H (ys.foldl (fun a y => setCell a x y (g a y)) m) :=
  foldl_preserves (HasDims W H) _ ys m hm (fun _ b _ ha => hasDims_setCell x b _ ha)

theorem hasDims_gridLoop {W H : Int} (g : Map → Int → Int → Int) (xs ys : List Int) (m : Map)
    (hm : HasDims W H m) :
    HasDims W H (xs.foldl (fun a x => ys.foldl (fun a y => setCell a x y (g a x y)) a) m) :=
  foldl_preserves (HasDims W H) _ xs m hm
    (fun a b _ ha => hasDims_rowLoop (fun a' y => g a' b y) b ys a ha)

theorem getCell_gridLoop {W H : Int} (g : Int → Int → Int)
    (xs : List Int) (hxs : ∀ x ∈ xs, 0 ≤ x ∧ x < H)
    (ys : List Int) (hys : ∀ y ∈ ys, 0 ≤ y ∧ y < W) (m : Map) (hm : HasDims W H m)
    (x' y' : Int) :
    getCell (xs.foldl (fun a x => ys.foldl (fun a y => setCell a x y (g x y)) a) m) x' y' =
      if x' ∈ xs ∧ y' ∈ ys then g x' y' else getCell m x' y' := by
  induction xs generalizing m with
  | nil => simp
  | cons x t ih =>
    have hx := hxs x (List.mem_cons_self x t)
    rw [List.foldl_cons, ih (fun z hz => hxs z (List.mem_cons_of_mem x hz)) _
      (hasDims_rowLoop (fun _ y => g x y) x ys m hm)]
    rw [getCell_rowLoop (g x) x hx.1 hx.2 ys hys m hm]
    by_cases h1 : x' ∈ t ∧ y' ∈ ys
    · rw [if_pos h1, if_pos ⟨List.mem_cons_of_mem x h1.1, h1.2⟩]
    · rw [if_neg h1]
      by_cases h2 : x' = x ∧ y' ∈ ys
      · rw [if_pos h2, if_pos ⟨by rw [h2.1]; exact List.mem_cons_self x t, h2.2⟩, h2.1]
      · have h3 : ¬ (x' ∈ x :: t ∧ y' ∈ ys) := by
          rintro ⟨hx', hy'⟩
          rcases List.mem_cons.mp hx' with h5 | h5
          · exact h2 ⟨h5, hy'⟩
          · exact h1 ⟨h5, hy'⟩
        rw [if_neg h2, if_neg h3]

/-! ## The neighbourhood sums -/

theorem wrapInt32_of_range {z : Int} (h1 : -2 ^ 31 ≤ z) (h2 : z < 2 ^ 31) : wrapInt32 z = z := by
  unfold wrapInt32
  omega

theorem wrapInt32_wrap_add (a b : Int) : wrapInt32 (wrapInt32 a + b) = wrapInt32 (a + b) := by
  unfold wrapInt32
  omega

theorem wrapInt32_zero : wrapInt32 0 = 0 := by
  decide

theorem foldl_neighbourStep (m : Map) (W H x y dx : Int) (l : List Int) (a b : Int) :
    l.foldl (neighbourStep m W H x y dx) (wrapInt32 a, wrapInt32 b) =
      (wrapInt32 (a + (l.map (fun dy => contribution m W H (x + dx) (y + dy))).sum),
        wrapInt32 (b + (l.length : Int))) := by
  induction l generalizing a b with
  | nil => simp
  | cons d t ih =>
    rw [List.foldl_cons]
    have hstep : neighbourStep m W H x y dx (wrapInt32 a, wrapInt32 b) d =
        (wrapInt32 (a + contribution m W H (x + dx) (y + d)), wrapInt32 (b + 1)) := by
      unfold neighbourStep contribution
      simp only [wrapInt32_wrap_add]
      split <;> rfl
    rw [hstep, ih]
    simp only [List.map_cons, List.sum_cons, List.length_cons, Nat.cast_add, Nat.cast_one]
    refine Prod.ext ?_ ?_ <;> simp only <;> congr 1 <;> ring

theorem foldl_neighbourRows (m : Map) (W H x y : Int) (l l' : List Int) (a b : Int) :
    l.foldl (fun acc dx => l'.foldl (neighbourStep m W H x y dx) acc)
        (wrapInt32 a, wrapInt32 b) =
      (wrapInt32 (a + (l.map (fun dx =>
          (l'.map (fun dy => contribution m W H (x + dx) (y + dy))).sum)).sum),
        wrapInt32 (b + (l.length : Int) * (l'.length : Int))) := by
  induction l generalizing a b with
  | nil => simp
  | cons d t ih =>
    rw [List.foldl_cons, foldl_neighbourStep, ih]
    simp only [List.map_cons, List.sum_cons, List.length_cons, Nat.cast_add, Nat.cast_one]
    refine Prod.ext ?_ ?_ <;> simp only <;> congr 1 <;> ring

theorem neighbourhood_eq (m : Map) (W H R x y : Int) :
    neighbourhood m W H R x y =
      (wrapInt32 (((forRange (-R) (R + 1)).map (fun dx =>
          ((forRange (-R) (R + 1)).map
            (fun dy => contribution m W H (x + dx) (y + dy))).sum)).sum),
        wrapInt32 (((2 * R + 1).toNat : Int) * ((2 * R + 1).toNat : Int))) := by
  unfold neighbourhood
  have h0 : ((0 : Int), (0 : Int)) = (wrapInt32 0, wrapInt32 0) := by
    rw [wrapInt32_zero]
  rw [h0, foldl_neighbourRows, length_forRange]
  have : R + 1 - -R = 2 * R + 1 := by ring
  simp [this]

theorem neighbourhood_total_wrap {R : Int} (hR : 0 ≤ R) (m : Map) (W H x y : Int) :
    (neighbourhood m W H R x y).2 = wrapInt32 ((2 * R + 1) ^ 2) := by
  rw [neighbourhood_eq]
  have : ((2 * R + 1).toNat : Int) = 2 * R + 1 := Int.toNat_of_nonneg (by omega)
  simp only [this]
  congr 1
  ring

theorem neighbourhood_total {R : Int} (hR : 0 ≤ R) (hb : (2 * R + 1) ^ 2 < 2 ^ 31) (m : Map)
    (W H x y : Int) : (neighbourhood m W H R x y).2 = (2 * R + 1) ^ 2 := by
  rw [neighbourhood_total_wrap hR]
  exact wrapInt32_of_range (le_trans (by norm_num) (sq_nonneg (2 * R + 1))) hb


/-! ## The smoother against its specification -/

theorem toFinset_forRange (R : Int) :
    (forRange (-R) (R + 1)).toFinset = Finset.Icc (-R) R := by
  ext i
  simp only [List.mem_toFinset, mem_forRange, Finset.mem_Icc]
  omega

theorem sum_Icc_eq (R : Int) (f : Int → Int) :
    ∑ i ∈ Finset.Icc (-R) R, f i = ((forRange (-R) (R + 1)).map f).sum := by
  rw [← toFinset_forRange, List.sum_toFinset f (nodup_forRange _ _)]

theorem contribution_eq (m : Map) (W H nx ny : Int) :
    contribution m W H nx ny =
      if 0 ≤ nx ∧ nx < H ∧ 0 ≤ ny ∧ ny < W then getCell m nx ny else 1 := by
  unfold contribution outOfBounds
  by_cases h : 0 ≤ nx ∧ nx < H ∧ 0 ≤ ny ∧ ny < W
  · rw [if_pos h]
    obtain ⟨h1, h2, h3, h4⟩ := h
    simp [h1, h2, h3, h4]
  · rw [if_neg h]
    rw [if_pos]
    simp only [Bool.or_eq_true, decide_eq_true_eq]
    by_contra hc
    apply h
    omega

theorem neighbourhood_count_wrap (m : Map) (W H R x y : Int) :
    (neighbourhood m W H R x y).1 = wrapInt32 (specActiveCount m W H R x y) := by
  rw [neighbourhood_eq]
  unfold specActiveCount
  rw [Finset.sum_product, sum_Icc_eq]
  simp only [sum_Icc_eq, contribution_eq]

theorem specTotalCount_eq {R : Int} (hR : 0 ≤ R) : specTotalCount R = (2 * R + 1) ^ 2 := by
  unfold specTotalCount
  rw [Finset.sum_const, Finset.card_product, Int.card_Icc]
  have : (R + 1 - -R).toNat = (2 * R + 1).toNat := by congr 1; ring
  rw [this]
  simp only [nsmul_eq_mul, mul_one, Nat.cast_mul]
  rw [Int.toNat_of_nonneg (by omega)]
  ring

theorem specActiveCount_nonneg {m : Map} (hb : Binary m) (W H R x y : Int) :
    0 ≤ specActiveCount m W H R x y := by
  unfold specActiveCount
  refine Finset.sum_nonneg (fun d _ => ?_)
  split
  · rcases getCell_binary hb (x + d.1) (y + d.2) with h | h <;> omega
  · decide

theorem specActiveCount_le_total {m : Map} (hb : Binary m) (W H R x y : Int) :
    specActiveCount m W H R x y ≤ specTotalCount R := by
  unfold specActiveCount specTotalCount
  refine Finset.sum_le_sum (fun d _ => ?_)
  split
  · rcases getCell_binary hb (x + d.1) (y + d.2) with h | h <;> omega
  · exact le_refl 1

theorem neighbourhood_count {m : Map} (hb : Binary m) {R : Int} (hR : 0 ≤ R)
    (hbound : (2 * R + 1) ^ 2 < 2 ^ 31) (W H x y : Int) :
    (neighbourhood m W H R x y).1 = specActiveCount m W H R x y := by
  rw [neighbourhood_count_wrap]
  have h1 := specActiveCount_nonneg hb W H R x y
  have h2 := specActiveCount_le_total hb W H R x y
  rw [specTotalCount_eq hR] at h2
  exact wrapInt32_of_range (by omega) (by omega)

theorem cellValue_eq_rounded {m : Map} (hb : Binary m) {R : Int} (hR : 0 ≤ R)
    (hbound : (2 * R + 1) ^ 2 < 2 ^ 31) (W H : Int) (U : ℚ) (x y : Int) :
    cellValue m W H R U x y =
      if roundBinary64 ((specActiveCount m W H R x y : ℚ) / (specTotalCount R : ℚ)) > U
      then 1 else 0 := by
  unfold cellValue ratioGt
  simp only
  have ht := neighbourhood_total hR hbound m W H x y
  have hne : (neighbourhood m W H R x y).2 ≠ 0 := by
    rw [ht]; positivity
  rw [if_neg hne, neighbourhood_count hb hR hbound, ht, specTotalCount_eq hR]
  simp

theorem getCell_cellularAutomata {W H : Int} {m : Map} (hm : HasDims W H m) (R : Int) (U : ℚ)
    {x y : Int} (hx0 : 0 ≤ x) (hx : x < H) (hy0 : 0 ≤ y) (hy : y < W) :
    getCell (cellularAutomata m W H R U) x y = cellValue m W H R U x y := by
  unfold cellularAutomata
  rw [getCell_gridLoop (cellValue m W H R U) _ (fun x hx => by
        rw [mem_forRange] at hx; omega) _ (fun y hy => by
        rw [mem_forRange] at hy; omega) m hm]
  rw [if_pos]
  simp only [mem_forRange]
  omega

theorem hasDims_cellularAutomata {W H : Int} {m : Map} (hm : HasDims W H m) (R : Int) (U : ℚ) :
    HasDims W H (cellularAutomata m W H R U) :=
  hasDims_gridLoop (fun _ x y => cellValue m W H R U x y) _ _ m hm

/-! ## Counter overflow at radius 23170 -/

theorem specActiveCount_single_zero {R : Int} (hR : 0 ≤ R) :
    specActiveCount [[0]] 1 1 R 0 0 = (2 * R + 1) ^ 2 - 1 := by
  have hterm : ∀ d : Int × Int,
      (if 0 ≤ 0 + d.1 ∧ 0 + d.1 < 1 ∧ 0 ≤ 0 + d.2 ∧ 0 + d.2 < 1
        then getCell [[0]] (0 + d.1) (0 + d.2) else 1) =
      1 - (if ((0 : Int), (0 : Int)) = d then 1 else 0) := by
    intro d
    by_cases h : ((0 : Int), (0 : Int)) = d
    · subst h
      decide
    · rw [if_neg h, if_neg]
      · rfl
      · intro hc
        apply h
        ext
        · simp only; omega
        · simp only; omega
  have hmem : ((0 : Int), (0 : Int)) ∈ Finset.Icc (-R) R ×ˢ Finset.Icc (-R) R := by
    simp only [Finset.mem_product, Finset.mem_Icc]
    omega
  have htot := specTotalCount_eq hR
  unfold specTotalCount at htot
  unfold specActiveCount
  simp only [hterm]
  rw [Finset.sum_sub_distrib, htot, Finset.sum_ite_eq, if_pos hmem]

theorem neighbourhood_overflow_zero :
    neighbourhood [[0]] 1 1 23170 0 0 = (-2147479016, -2147479015) := by
  refine Prod.ext ?_ ?_
  · rw [neighbourhood_count_wrap, specActiveCount_single_zero (by decide)]
    decide
  · rw [neighbourhood_total_wrap (by decide)]
    decide

theorem cellValue_overflow_zero : cellValue [[0]] 1 1 23170 1 0 0 = 1 := by
  unfold cellValue ratioGt
  rw [neighbourhood_overflow_zero]
  simp only [show (-2147479015 : Int) ≠ 0 by decide, if_false]
  rw [if_pos]
  rw [decide_eq_true_eq]
  have hq : (1 : ℚ) + 1 / 2 ^ 52 ≤ ((-2147479016 : Int) : ℚ) / ((-2147479015 : Int) : ℚ) := by
    norm_num
  have hm := roundBinary64_mono (by norm_num) hq
  rw [roundBinary64_one_plus] at hm
  have : (1 : ℚ) < 1 + 1 / 2 ^ 52 := by norm_num
  exact lt_of_lt_of_le this hm

theorem cellValue_rounding_tie :
    cellValue [[0, 0, 0], [0, 0, 0], [0, 0, 0]] 3 3 1
      (6004799503160661 / 18014398509481984) 0 1 = 0 := by
  have hn : neighbourhood [[0, 0, 0], [0, 0, 0], [0, 0, 0]] 3 3 1 0 1 = (3, 9) := by decide
  unfold cellValue ratioGt
  rw [hn]
  simp only [show (9 : Int) ≠ 0 by decide, if_false, Int.cast_ofNat]
  rw [roundBinary64_three_ninths]
  simp

/-- C1 (counterexamples): the cell is not decided by the exact quotient for every input.
On the 3×3 zero grid with `R = 1` and `U` the double nearest to `1/3`, cell `(0, 1)` has
`count/total = 3/9 > U` exactly, yet the rounded quotient equals `U` and
`cellularAutomata` writes `0`.  On the 1×1 zero grid with `R = 23170` and `U = 1` the
`int` counters wrap, the quotient of the wrapped counters exceeds `1` and
`cellularAutomata` writes `1`, although the exact quotient of the two sums is below
`1`. -/
theorem cellularAutomata_exact_quotient_fails :
    (getCell (cellularAutomata [[0, 0, 0], [0, 0, 0], [0, 0, 0]] 3 3 1
        (6004799503160661 / 18014398509481984)) 0 1 = 0 ∧
      (specActiveCount [[0, 0, 0], [0, 0, 0], [0, 0, 0]] 3 3 1 0 1 : ℚ) /
        (specTotalCount 1 : ℚ) > 6004799503160661 / 18014398509481984) ∧
    (getCell (cellularAutomata [[0]] 1 1 23170 1) 0 0 = 1 ∧
      ¬ ((specActiveCount [[0]] 1 1 23170 0 0 : ℚ) / (specTotalCount 23170 : ℚ) > 1)) := by
  have hn : neighbourhood [[0, 0, 0], [0, 0, 0], [0, 0, 0]] 3 3 1 0 1 = (3, 9) := by decide
  refine ⟨⟨?_, ?_⟩, ⟨?_, ?_⟩⟩
  · rw [getCell_cellularAutomata (by decide) 1 _ (by decide) (by decide) (by decide)
      (by decide)]
    exact cellValue_rounding_tie
  · have hc : specActiveCount [[0, 0, 0], [0, 0, 0], [0, 0, 0]] 3 3 1 0 1 = 3 := by
      rw [← neighbourhood_count (by decide) (by decide) (by decide), hn]
    rw [hc, specTotalCount_eq (by decide)]
    norm_num
  · rw [getCell_cellularAutomata (by decide) 23170 _ (by decide) (by decide) (by decide)
      (by decide)]
    exact cellValue_overflow_zero
  · rw [specActiveCount_single_zero (by decide), specTotalCount_eq (by decide)]
    norm_num

/-- C1 (amended): on a grid of `H` rows of `W` binary cells and for `R ≥ 0` with
`(2R+1)² < 2^31`, `cellularAutomata` returns a grid of the same dimensions whose cell
`(x, y)` is `1` exactly when the quotient of the specification's active count by its
total count, rounded to binary64, exceeds `U`, and `0` otherwise. -/
theorem cellularAutomata_spec (m : Map) (W H R : Int) (U : ℚ) (hm : WellFormed W H m)
    (hR : 0 ≤ R) (hbound : (2 * R + 1) ^ 2 < 2 ^ 31) :
    HasDims W H (cellularAutomata m W H R U) ∧
    ∀ x y : Int, 0 ≤ x → x < H → 0 ≤ y → y < W →
      (getCell (cellularAutomata m W H R U) x y = 1 ↔
        roundBinary64 ((specActiveCount m W H R x y : ℚ) / (specTotalCount R : ℚ)) > U) ∧
      (getCell (cellularAutomata m W H R U) x y = 0 ↔
        ¬ roundBinary64 ((specActiveCount m W H R x y : ℚ) / (specTotalCount R : ℚ)) > U) := by
  refine ⟨hasDims_cellularAutomata hm.1 R U, ?_⟩
  intro x y hx0 hx hy0 hy
  rw [getCell_cellularAutomata hm.1 R U hx0 hx hy0 hy, cellValue_eq_rounded hm.2 hR hbound]
  constructor <;> split <;> simp_all

theorem cellularAutomata_spec_witness :
    HasDims 2 3 (cellularAutomata [[0, 0], [0, 0], [0, 0]] 2 3 1 (1 / 2)) ∧
    (getCell (cellularAutomata [[0, 0], [0, 0], [0, 0]] 2 3 1 (1 / 2)) 1 0 = 1 ↔
      roundBinary64 ((specActiveCount [[0, 0], [0, 0], [0, 0]] 2 3 1 1 0 : ℚ) /
        (specTotalCount 1 : ℚ)) > 1 / 2) :=
  have h := cellularAutomata_spec [[0, 0], [0, 0], [0, 0]] 2 3 1 (1 / 2) (by decide) (by decide)
    (by decide)
  ⟨h.1, (h.2 1 0 (by decide) (by decide) (by decide) (by decide)).1⟩

theorem neighbourhood_congr {W H R x y : Int} {m1 m2 : Map}
    (hagree : ∀ dx dy : Int, -R ≤ dx → dx ≤ R → -R ≤ dy → dy ≤ R →
      0 ≤ x + dx → x + dx < H → 0 ≤ y + dy → y + dy < W →
      getCell m1 (x + dx) (y + dy) = getCell m2 (x + dx) (y + dy)) :
    neighbourhood m1 W H R x y = neighbourhood m2 W H R x y := by
  rw [neighbourhood_eq, neighbourhood_eq]
  refine Prod.ext ?_ rfl
  refine congrArg wrapInt32 (congrArg List.sum (List.map_congr_left (fun dx hdx => ?_)))
  refine congrArg List.sum (List.map_congr_left (fun dy hdy => ?_))
  rw [mem_forRange] at hdx hdy
  rw [contribution_eq, contribution_eq]
  by_cases h : 0 ≤ x + dx ∧ x + dx < H ∧ 0 ≤ y + dy ∧ y + dy < W
  · rw [if_pos h, if_pos h]
    exact hagree dx dy hdx.1 (by omega) hdy.1 (by omega) h.1 h.2.1 h.2.2.1 h.2.2.2
  · rw [if_neg h, if_neg h]

/-- C2: the value `cellularAutomata` gives to an in-bounds cell `(x, y)` depends only on
the input grid's cells inside the `(2R+1) × (2R+1)` window around `(x, y)`: two input
grids of the same dimensions that agree on every in-bounds cell of the window get the
same output value at `(x, y)`. -/
theorem cellularAutomata_reads_snapshot (m1 m2 : Map) (W H R : Int) (U : ℚ) (x y : Int)
    (h1 : HasDims W H m1) (h2 : HasDims W H m2) (hR : 0 ≤ R)
    (hx0 : 0 ≤ x) (hx : x < H) (hy0 : 0 ≤ y) (hy : y < W)
    (hagree : ∀ dx dy : Int, -R ≤ dx → dx ≤ R → -R ≤ dy → dy ≤ R →
      0 ≤ x + dx → x + dx < H → 0 ≤ y + dy → y + dy < W →
      getCell m1 (x + dx) (y + dy) = getCell m2 (x + dx) (y + dy)) :
    getCell (cellularAutomata m1 W H R U) x y = getCell (cellularAutomata m2 W H R U) x y := by
  have _ := hR
  rw [getCell_cellularAutomata h1 R U hx0 hx hy0 hy,
    getCell_cellularAutomata h2 R U hx0 hx hy0 hy]
  unfold cellValue
  rw [neighbourhood_congr hagree]

theorem cellularAutomata_reads_snapshot_witness :
    getCell (cellularAutomata [[0, 1, 0, 0, 0]] 5 1 1 (1 / 2)) 0 1 =
      getCell (cellularAutomata [[0, 1, 0, 1, 1]] 5 1 1 (1 / 2)) 0 1 :=
  cellularAutomata_reads_snapshot [[0, 1, 0, 0, 0]] [[0, 1, 0, 1, 1]] 5 1 1 (1 / 2) 0 1
    (by decide) (by decide) (by decide) (by decide) (by decide) (by decide) (by decide)
    (by
      intro dx dy h1 h2 h3 h4 h5 h6 h7 h8
      have hdx : dx = 0 := by omega
      subst hdx
      interval_cases dy <;> decide)

/-- C4 (counterexample): with `R = 23170` the window has `(2R+1)² = 2147488281` offsets,
more than an `int` holds: the counter `total` wraps and is `-2147479015` when the
division is reached, not `(2R+1)²`. -/
theorem smoother_total_overflows :
    (neighbourhood [[0]] 1 1 23170 0 0).2 = -2147479015 ∧
    (neighbourhood [[0]] 1 1 23170 0 0).2 ≠ (2 * 23170 + 1) ^ 2 := by
  rw [neighbourhood_overflow_zero]
  decide

/-- C4 (amended): for every grid of `H` rows of `W` cells, every cell `(x, y)` of it
(interior, edge or corner) and every `R ≥ 0` with `(2R+1)² < 2^31` (also `R` at least the
grid dimensions), the `total` accumulated by the two offset loops of the smoother, which
`cellularAutomata` and `cellularAutomataInPlace` both divide by, is exactly `(2R+1)²`;
for every `0 ≤ R < 2^31 - 1` it is `(2R+1)²` reduced modulo `2^32` into the `int`
range. -/
theorem smoother_total_eq (m : Map) (W H R x y : Int) (hm : HasDims W H m)
    (hxy : InGrid W H x y) (hR : 0 ≤ R) :
    ((2 * R + 1) ^ 2 < 2 ^ 31 → (neighbourhood m W H R x y).2 = (2 * R + 1) ^ 2) ∧
    (R < 2 ^ 31 - 1 → (neighbourhood m W H R x y).2 = wrapInt32 ((2 * R + 1) ^ 2)) := by
  have _ := hm
  have _ := hxy
  exact ⟨fun hbound => neighbourhood_total hR hbound m W H x y,
    fun _ => neighbourhood_total_wrap hR m W H x y⟩

theorem smoother_total_eq_witness :
    (neighbourhood [[0, 1], [1, 0]] 2 2 5 0 0).2 = (2 * 5 + 1) ^ 2 :=
  (smoother_total_eq [[0, 1], [1, 0]] 2 2 5 0 0 (by decide) (by decide) (by decide)).1
    (by decide)

/-! ## The in-place smoother on a concrete grid -/

theorem roundBinary64_ninths_gt_half {c : Int} (hc0 : 0 ≤ c) :
    roundBinary64 ((c : ℚ) / 9) > 1 / 2 ↔ 5 ≤ c := by
  have hq0 : (0 : ℚ) ≤ (c : ℚ) := by exact_mod_cast hc0
  constructor
  · intro h
    by_contra hc
    have h4 : c ≤ 4 := by omega
    have h4q : (c : ℚ) ≤ 4 := by exact_mod_cast h4
    have hle : (c : ℚ) / 9 ≤ 1 / 2 := by
      rw [div_le_iff₀ (by norm_num)]
      linarith
    have hm := roundBinary64_mono (div_nonneg hq0 (by norm_num)) hle
    rw [roundBinary64_half] at hm
    exact absurd h (not_lt.mpr hm)
  · intro hc
    have h5q : (5 : ℚ) ≤ (c : ℚ) := by exact_mod_cast hc
    have hle : (17 : ℚ) / 32 ≤ (c : ℚ) / 9 := by
      rw [le_div_iff₀ (by norm_num)]
      linarith
    have hm := roundBinary64_mono (by norm_num) hle
    rw [roundBinary64_seventeen] at hm
    have : (1 : ℚ) / 2 < 17 / 32 := by norm_num
    exact lt_of_lt_of_le this hm

theorem cellValue_half_of_nine (m : Map) (W H x y c : Int)
    (h : neighbourhood m W H 1 x y = (c, 9)) (hc0 : 0 ≤ c) :
    cellValue m W H 1 (1 / 2) x y = if 5 ≤ c then 1 else 0 := by
  unfold cellValue ratioGt
  rw [h]
  simp only [show (9 : Int) ≠ 0 by decide, if_false, decide_eq_true_eq, Int.cast_ofNat]
  have key := roundBinary64_ninths_gt_half hc0
  by_cases hc : 5 ≤ c
  · rw [if_pos hc, if_pos (key.mpr hc)]
  · rw [if_neg hc, if_neg (fun h' => hc (key.mp h'))]

/-- C3 (failing input): on the all-zero grid of 3 rows and 2 columns with `R = 1` and
`U = 1/2`, the values `main` uses, `cellularAutomataInPlace` leaves the all-one grid
while `cellularAutomata` returns a grid whose middle row is zero: row 1 of the in-place
pass reads the ones already written to row 0. -/
theorem inPlace_differs_from_snapshot :
    cellularAutomataInPlace [[0, 0], [0, 0], [0, 0]] 2 3 1 (1 / 2) = [[1, 1], [1, 1], [1, 1]] ∧
    cellularAutomata [[0, 0], [0, 0], [0, 0]] 2 3 1 (1 / 2) = [[1, 1], [0, 0], [1, 1]] := by
  have r3 : forRange 0 3 = [0, 1, 2] := by decide
  have r2 : forRange 0 2 = [0, 1] := by decide
  constructor
  · unfold cellularAutomataInPlace
    rw [r3, r2]
    simp only [List.foldl_cons, List.foldl_nil]
    rw [cellValue_half_of_nine [[0, 0], [0, 0], [0, 0]] 2 3 0 0 5 (by decide) (by decide),
      show setCell [[0, 0], [0, 0], [0, 0]] 0 0 (if (5 : Int) ≤ 5 then 1 else 0)
        = [[1, 0], [0, 0], [0, 0]] from by decide,
      cellValue_half_of_nine [[1, 0], [0, 0], [0, 0]] 2 3 0 1 6 (by decide) (by decide),
      show setCell [[1, 0], [0, 0], [0, 0]] 0 1 (if (5 : Int) ≤ 6 then 1 else 0)
        = [[1, 1], [0, 0], [0, 0]] from by decide,
      cellValue_half_of_nine [[1, 1], [0, 0], [0, 0]] 2 3 1 0 5 (by decide) (by decide),
      show setCell [[1, 1], [0, 0], [0, 0]] 1 0 (if (5 : Int) ≤ 5 then 1 else 0)
        = [[1, 1], [1, 0], [0, 0]] from by decide,
      cellValue_half_of_nine [[1, 1], [1, 0], [0, 0]] 2 3 1 1 6 (by decide) (by decide),
      show setCell [[1, 1], [1, 0], [0, 0]] 1 1 (if (5 : Int) ≤ 6 then 1 else 0)
        = [[1, 1], [1, 1], [0, 0]] from by decide,
      cellValue_half_of_nine [[1, 1], [1, 1], [0, 0]] 2 3 2 0 7 (by decide) (by decide),
      show setCell [[1, 1], [1, 1], [0, 0]] 2 0 (if (5 : Int) ≤ 7 then 1 else 0)
        = [[1, 1], [1, 1], [1, 0]] from by decide,
      cellValue_half_of_nine [[1, 1], [1, 1], [1, 0]] 2 3 2 1 8 (by decide) (by decide),
      show setCell [[1, 1], [1, 1], [1, 0]] 2 1 (if (5 : Int) ≤ 8 then 1 else 0)
        = [[1, 1], [1, 1], [1, 1]] from by decide]
  · unfold cellularAutomata
    rw [r3, r2]
    simp only [List.foldl_cons, List.foldl_nil]
    rw [cellValue_half_of_nine [[0, 0], [0, 0], [0, 0]] 2 3 0 0 5 (by decide) (by decide),
      cellValue_half_of_nine [[0, 0], [0, 0], [0, 0]] 2 3 0 1 5 (by decide) (by decide),
      cellValue_half_of_nine [[0, 0], [0, 0], [0, 0]] 2 3 1 0 3 (by decide) (by decide),
      cellValue_half_of_nine [[0, 0], [0, 0], [0, 0]] 2 3 1 1 3 (by decide) (by decide),
      cellValue_half_of_nine [[0, 0], [0, 0], [0, 0]] 2 3 2 0 5 (by decide) (by decide),
      cellValue_half_of_nine [[0, 0], [0, 0], [0, 0]] 2 3 2 1 5 (by decide) (by decide)]
    decide


/-! ## The smoother on the all-one grid -/

theorem getCell_of_allOnes {W H : Int} {m : Map} (hm : HasDims W H m)
    (h1 : ∀ row ∈ m, ∀ c ∈ row, c = 1) {x y : Int}
    (hx0 : 0 ≤ x) (hx : x < H) (hy0 : 0 ≤ y) (hy : y < W) : getCell m x y = 1 := by
  have hxl : x.toNat < m.length := by have := hm.1; omega
  have hyl : y.toNat < (m[x.toNat]).length := by
    have := hm.2 _ (List.getElem_mem hxl); omega
  unfold getCell
  rw [if_pos ⟨hx0, hy0⟩, List.getD_eq_getElem _ _ hxl, List.getD_eq_getElem _ _ hyl]
  exact h1 _ (List.getElem_mem hxl) _ (List.getElem_mem hyl)

theorem list_set_self {α : Type} (l : List α) (i : Nat) (h : i < l.length) :
    l.set i (l[i]) = l := by
  apply List.ext_getElem (by simp)
  intro n h1 h2
  rw [List.getElem_set]
  split
  · next h' => subst h'; rfl
  · rfl

theorem setCell_one_of_allOnes {m : Map} (h1 : ∀ row ∈ m, ∀ c ∈ row, c = 1) (x y : Int) :
    setCell m x y 1 = m := by
  unfold setCell
  split
  · by_cases hxl : x.toNat < m.length
    · rw [List.getD_eq_getElem _ _ hxl]
      have hrow : (m[x.toNat]).set y.toNat 1 = m[x.toNat] := by
        by_cases hyl : y.toNat < (m[x.toNat]).length
        · have := h1 _ (List.getElem_mem hxl) _ (List.getElem_mem hyl)
          conv_lhs => rw [← this]
          exact list_set_self _ _ hyl
        · exact List.set_eq_of_length_le (by omega)
      rw [hrow]
      exact list_set_self _ _ hxl
    · exact List.set_eq_of_length_le (by omega)
  · rfl

theorem wrapInt32_odd_sq_ne_zero (R : Int) : wrapInt32 ((2 * R + 1) ^ 2) ≠ 0 := by
  have e : (2 * R + 1) ^ 2 = 4 * (R * R + R) + 1 := by ring
  rw [e]
  generalize R * R + R = k
  unfold wrapInt32
  omega

theorem ratioGt_self {c : Int} (hc : c ≠ 0) (U : ℚ) : ratioGt c c U = decide (1 > U) := by
  unfold ratioGt
  rw [if_neg hc]
  have hq : (c : ℚ) ≠ 0 := by exact_mod_cast hc
  rw [div_self hq, roundBinary64_one]

theorem neighbourhood_of_allOnes {W H R : Int} {m : Map} (hm : HasDims W H m)
    (h1 : ∀ row ∈ m, ∀ c ∈ row, c = 1) (hR : 0 ≤ R) (x y : Int) :
    neighbourhood m W H R x y =
      (wrapInt32 ((2 * R + 1) ^ 2), wrapInt32 ((2 * R + 1) ^ 2)) := by
  have hc : ∀ dx dy : Int, contribution m W H (x + dx) (y + dy) = 1 := by
    intro dx dy
    rw [contribution_eq]
    split
    · next h => exact getCell_of_allOnes hm h1 h.1 h.2.1 h.2.2.1 h.2.2.2
    · rfl
  rw [neighbourhood_eq]
  simp only [hc, List.map_const', List.sum_replicate, length_forRange, smul_eq_mul, mul_one,
    nsmul_eq_mul]
  have e1 : R + 1 - -R = 2 * R + 1 := by ring
  have e2 : ((2 * R + 1).toNat : Int) = 2 * R + 1 := Int.toNat_of_nonneg (by omega)
  rw [e1]
  simp only [Nat.cast_mul, e2]
  refine Prod.ext ?_ ?_ <;> simp only <;> congr 1 <;> ring

theorem cellValue_of_allOnes {W H R : Int} {m : Map} (hm : HasDims W H m)
    (h1 : ∀ row ∈ m, ∀ c ∈ row, c = 1) (hR : 0 ≤ R) (x y : Int) :
    cellValue m W H R 0 x y = 1 := by
  unfold cellValue
  rw [neighbourhood_of_allOnes hm h1 hR]
  simp only
  rw [ratioGt_self (wrapInt32_odd_sq_ne_zero R)]
  simp

/-- C10: on a grid of `H` rows of `W` cells that are all `1`, with `R ≥ 0` and `U = 0`,
`cellularAutomata` returns that same all-one grid and `cellularAutomataInPlace` leaves
it. -/
theorem smoother_allOnes (m : Map) (W H R : Int) (hm : HasDims W H m)
    (h1 : ∀ row ∈ m, ∀ c ∈ row, c = 1) (hR : 0 ≤ R) :
    cellularAutomata m W H R 0 = m ∧ cellularAutomataInPlace m W H R 0 = m := by
  constructor
  · unfold cellularAutomata
    refine foldl_preserves (fun a => a = m) _ _ m rfl (fun a x _ ha => ?_)
    refine foldl_preserves (fun a => a = m) _ _ a ha (fun b y _ hb => ?_)
    rw [hb, cellValue_of_allOnes hm h1 hR]
    exact setCell_one_of_allOnes h1 x y
  · unfold cellularAutomataInPlace
    refine foldl_preserves (fun a => a = m) _ _ m rfl (fun a x _ ha => ?_)
    refine foldl_preserves (fun a => a = m) _ _ a ha (fun b y _ hb => ?_)
    rw [hb, cellValue_of_allOnes hm h1 hR]
    exact setCell_one_of_allOnes h1 x y

theorem smoother_allOnes_witness :
    cellularAutomata [[1, 1, 1], [1, 1, 1]] 3 2 2 0 = [[1, 1, 1], [1, 1, 1]] ∧
    cellularAutomataInPlace [[1, 1, 1], [1, 1, 1]] 3 2 2 0 = [[1, 1, 1], [1, 1, 1]] :=
  smoother_allOnes [[1, 1, 1], [1, 1, 1]] 3 2 2 (by decide) (by decide) (by decide)


/-! ## The carver: what each statement leaves unchanged -/

theorem foldl_writeOne_frame (x : Int) (ys : List Int) (s : AgentState) :
    (ys.foldl (fun a y => writeOne a x y) s).agentX = s.agentX ∧
    (ys.foldl (fun a y => writeOne a x y) s).agentY = s.agentY ∧
    (ys.foldl (fun a y => writeOne a x y) s).visited = s.visited :=
  foldl_preserves
    (fun a : AgentState => a.agentX = s.agentX ∧ a.agentY = s.agentY ∧ a.visited = s.visited)
    (fun a y => writeOne a x y) ys s ⟨rfl, rfl, rfl⟩ (fun _ _ _ ha => ha)

theorem stampRoom_frame (P : Params) (s : AgentState) :
    (stampRoom P s).agentX = s.agentX ∧ (stampRoom P s).agentY = s.agentY ∧
    (stampRoom P s).visited = s.visited := by
  unfold stampRoom
  refine foldl_preserves
    (fun a : AgentState => a.agentX = s.agentX ∧ a.agentY = s.agentY ∧ a.visited = s.visited)
    _ _ s ⟨rfl, rfl, rfl⟩ (fun a x _ ha => ?_)
  obtain ⟨h1, h2, h3⟩ := foldl_writeOne_frame x
    (forRange (max 0 (s.agentY - Int.tdiv P.roomSizeY 2))
      (min P.W (max 0 (s.agentY - Int.tdiv P.roomSizeY 2) + P.roomSizeY))) a
  exact ⟨h1.trans ha.1, h2.trans ha.2.1, h3.trans ha.2.2⟩

theorem markStep_frame (P : Params) (s : AgentState) :
    (markStep P s).agentX = s.agentX ∧ (markStep P s).agentY = s.agentY ∧
    (markStep P s).visited = s.visited := by
  unfold markStep
  split <;> exact ⟨rfl, rfl, rfl⟩

theorem roomStep_frame (P : Params) (rng : Rng) (s : AgentState) :
    (roomStep P rng s).agentX = s.agentX ∧ (roomStep P rng s).agentY = s.agentY ∧
    (roomStep P rng s).visited = s.visited := by
  unfold roomStep
  split
  · exact stampRoom_frame P s
  · exact ⟨rfl, rfl, rfl⟩

theorem dirStep_frame (P : Params) (rng : Rng) (s : AgentState) :
    (dirStep P rng s).agentX = s.agentX ∧ (dirStep P rng s).agentY = s.agentY ∧
    (dirStep P rng s).visited = s.visited ∧ (dirStep P rng s).newMap = s.newMap ∧
    (dirStep P rng s).writes = s.writes := by
  unfold dirStep
  split <;> exact ⟨rfl, rfl, rfl, rfl, rfl⟩

theorem moveStep_frame (P : Params) (rng : Rng) (s : AgentState) :
    (moveStep P rng s).1.visited = s.visited ∧ (moveStep P rng s).1.newMap = s.newMap ∧
    (moveStep P rng s).1.writes = s.writes := by
  unfold moveStep
  simp only
  split <;> exact ⟨rfl, rfl, rfl⟩

theorem visited_innerStep (P : Params) (rng : Rng) (s : AgentState) :
    (innerStep P rng s).1.visited = (s.agentX, s.agentY) :: s.visited := by
  unfold innerStep
  simp only
  rw [(moveStep_frame P rng _).1, (dirStep_frame P rng _).2.2.1, (roomStep_frame P rng _).2.2,
    (markStep_frame P _).2.2]

/-! ## The carver: loops -/

theorem innerLoop_preserves (P : Params) (rng : Rng) (Q : AgentState → Prop)
    (hQ : ∀ s, Q s → Q (innerStep P rng s).1) (n : Nat) (s : AgentState) (hs : Q s) :
    Q (innerLoop P rng n s) := by
  induction n generalizing s with
  | zero => exact hs
  | succ n ih =>
    unfold innerLoop
    simp only
    split
    · exact hQ s hs
    · exact ih _ (hQ s hs)

theorem outerLoop_preserves (P : Params) (rng : Rng) (Q : AgentState → Prop)
    (hQ : ∀ s, Q s → Q (innerStep P rng s).1) (n : Nat) (s : AgentState) (hs : Q s) :
    Q (outerLoop P rng n s) := by
  induction n generalizing s with
  | zero => exact hs
  | succ n ih =>
    unfold outerLoop
    exact ih _ (innerLoop_preserves P rng Q hQ _ s hs)

/-! ## The carver: properties of the map kept by every write of `1` -/

theorem stampRoom_map (Q : Map → Prop) (hQ : ∀ m x y, Q m → Q (setCell m x y 1))
    (P : Params) (s : AgentState) (hs : Q s.newMap) : Q (stampRoom P s).newMap := by
  unfold stampRoom
  refine foldl_preserves (fun a : AgentState => Q a.newMap) _ _ s hs (fun a x _ ha => ?_)
  exact foldl_preserves (fun a : AgentState => Q a.newMap) (fun a y => writeOne a x y) _ a ha
    (fun b y _ hb => hQ _ x y hb)

theorem markStep_map (Q : Map → Prop) (hQ : ∀ m x y, Q m → Q (setCell m x y 1))
    (P : Params) (s : AgentState) (hs : Q s.newMap) : Q (markStep P s).newMap := by
  unfold markStep
  split
  · exact hQ _ _ _ hs
  · exact hs

theorem roomStep_map (Q : Map → Prop) (hQ : ∀ m x y, Q m → Q (setCell m x y 1))
    (P : Params) (rng : Rng) (s : AgentState) (hs : Q s.newMap) :
    Q (roomStep P rng s).newMap := by
  unfold roomStep
  split
  · exact stampRoom_map Q hQ P s hs
  · exact hs

theorem innerStep_map (Q : Map → Prop) (hQ : ∀ m x y, Q m → Q (setCell m x y 1))
    (P : Params) (rng : Rng) (s : AgentState) (hs : Q s.newMap) :
    Q (innerStep P rng s).1.newMap := by
  unfold innerStep
  simp only
  rw [(moveStep_frame P rng _).2.1, (dirStep_frame P rng _).2.2.2.1]
  exact roomStep_map Q hQ P rng _ (markStep_map Q hQ P _ hs)

theorem drunkAgent_map (Q : Map → Prop) (hQ : ∀ m x y, Q m → Q (setCell m x y 1))
    (m : Map) (W H J I roomSizeX roomSizeY : Int) (p1 p2 p3 p4 : ℚ) (agentX agentY : Int)
    (rng : Rng) (hm : Q m) :
    Q (drunkAgent m W H J I roomSizeX roomSizeY p1 p2 p3 p4 agentX agentY rng).newMap := by
  unfold drunkAgent
  simp only
  refine outerLoop_preserves _ rng (fun a => Q a.newMap)
    (fun s hs => innerStep_map Q hQ _ rng s hs) _ _ ?_
  unfold initAgent
  split <;> exact hm

/-! ## Well-formedness is preserved -/

theorem cellValue_binary (m : Map) (W H R : Int) (U : ℚ) (x y : Int) :
    cellValue m W H R U x y = 0 ∨ cellValue m W H R U x y = 1 := by
  unfold cellValue
  simp only
  split
  · exact Or.inr rfl
  · exact Or.inl rfl

theorem wellFormed_cellularAutomata {W H : Int} {m : Map} (hm : WellFormed W H m)
    (R : Int) (U : ℚ) : WellFormed W H (cellularAutomata m W H R U) := by
  unfold cellularAutomata
  refine foldl_preserves (WellFormed W H) _ _ m hm (fun a x _ ha => ?_)
  exact foldl_preserves (WellFormed W H) _ _ a ha
    (fun b y _ hb => wellFormed_setCell x y hb (cellValue_binary _ _ _ _ _ _ _))

theorem wellFormed_cellularAutomataInPlace {W H : Int} {m : Map} (hm : WellFormed W H m)
    (R : Int) (U : ℚ) : WellFormed W H (cellularAutomataInPlace m W H R U) := by
  unfold cellularAutomataInPlace
  refine foldl_preserves (WellFormed W H) _ _ m hm (fun a x _ ha => ?_)
  exact foldl_preserves (WellFormed W H) _ _ a ha
    (fun b y _ hb => wellFormed_setCell x y hb (cellValue_binary _ _ _ _ _ _ _))

theorem wellFormed_drunkAgent {W H : Int} {m : Map} (hm : WellFormed W H m)
    (J I roomSizeX roomSizeY : Int) (p1 p2 p3 p4 : ℚ) (agentX agentY : Int) (rng : Rng) :
    WellFormed W H
      (drunkAgent m W H J I roomSizeX roomSizeY p1 p2 p3 p4 agentX agentY rng).newMap :=
  drunkAgent_map (WellFormed W H)
    (fun _ x y h => wellFormed_setCell x y h (Or.inr rfl)) m W H J I roomSizeX roomSizeY
    p1 p2 p3 p4 agentX agentY rng hm

theorem wellFormed_mainLoop (rngs : Nat → Rng) (n : Nat) (st : LoopState)
    (hst : WellFormed 20 10 st.myMap) : WellFormed 20 10 (mainLoop rngs n st).myMap := by
  induction n with
  | zero => exact hst
  | succ n ih =>
    unfold mainLoop mainIteration
    exact wellFormed_drunkAgent (wellFormed_cellularAutomataInPlace ih 1 (1 / 2)) _ _ _ _
      _ _ _ _ _ _ _

/-- C5: if the input grid has exactly `H` rows of exactly `W` cells, all `0` or `1`
(`H, W > 0`), then so has the grid produced by `cellularAutomata` and by
`cellularAutomataInPlace` (for every `R ≥ 0` and `U`) and by `drunkAgent` (for every
`J`, `I`, room size, probabilities, agent position and random draws); and a well-formed
grid of 10 rows of 20 cells stays so after any number of iterations of the loop of
`main`, in particular it has 10 rows of 20 binary cells after 5 iterations. -/
theorem wellFormed_preserved (m : Map) (W H : Int) (hm : WellFormed W H m)
    (hW : 0 < W) (hH : 0 < H) :
    (∀ (R : Int) (U : ℚ), 0 ≤ R → WellFormed W H (cellularAutomata m W H R U)) ∧
    (∀ (R : Int) (U : ℚ), 0 ≤ R → WellFormed W H (cellularAutomataInPlace m W H R U)) ∧
    (∀ (J I roomSizeX roomSizeY : Int) (p1 p2 p3 p4 : ℚ) (agentX agentY : Int) (rng : Rng),
      WellFormed W H
        (drunkAgent m W H J I roomSizeX roomSizeY p1 p2 p3 p4 agentX agentY rng).newMap) ∧
    (W = 20 → H = 10 → ∀ (rngs : Nat → Rng) (agentX agentY : Int),
      (∀ n : Nat, WellFormed 20 10 (mainLoop rngs n ⟨m, agentX, agentY⟩).myMap) ∧
      ((mainLoop rngs 5 ⟨m, agentX, agentY⟩).myMap.length = 10 ∧
        ∀ row ∈ (mainLoop rngs 5 ⟨m, agentX, agentY⟩).myMap,
          row.length = 20 ∧ ∀ c ∈ row, c = 0 ∨ c = 1)) := by
  have _ := hW
  have _ := hH
  refine ⟨fun R U _ => wellFormed_cellularAutomata hm R U,
    fun R U _ => wellFormed_cellularAutomataInPlace hm R U,
    fun J I rx ry p1 p2 p3 p4 ax ay rng => wellFormed_drunkAgent hm J I rx ry p1 p2 p3 p4 ax ay rng,
    ?_⟩
  intro hW20 hH10 rngs ax ay
  subst hW20 hH10
  have hall : ∀ n : Nat, WellFormed 20 10 (mainLoop rngs n ⟨m, ax, ay⟩).myMap :=
    fun n => wellFormed_mainLoop rngs n ⟨m, ax, ay⟩ hm
  refine ⟨hall, ?_⟩
  obtain ⟨⟨hl, hr⟩, hb⟩ := hall 5
  refine ⟨by exact_mod_cast hl, fun row hrow => ⟨by exact_mod_cast hr row hrow, hb row hrow⟩⟩

theorem wellFormed_preserved_witness :
    WellFormed 20 10
      (cellularAutomata (List.replicate 10 (List.replicate 20 0)) 20 10 1 (1 / 2)) ∧
    WellFormed 20 10
      (cellularAutomataInPlace (List.replicate 10 (List.replicate 20 0)) 20 10 1 (1 / 2)) ∧
    WellFormed 20 10
      (drunkAgent (List.replicate 10 (List.replicate 20 0)) 20 10 5 10 5 3
        (1 / 10) (1 / 20) (1 / 5) (3 / 100) 5 10 (fun n => ⟨n, 3, 1 / 2⟩)).newMap ∧
    (mainLoop (fun _ n => ⟨n, 3, 1 / 2⟩) 5
      ⟨List.replicate 10 (List.replicate 20 0), 5, 10⟩).myMap.length = 10 :=
  have h := wellFormed_preserved (List.replicate 10 (List.replicate 20 0)) 20 10
    (by decide) (by decide) (by decide)
  ⟨h.1 1 (1 / 2) (by decide), h.2.1 1 (1 / 2) (by decide),
    h.2.2.1 5 10 5 3 (1 / 10) (1 / 20) (1 / 5) (3 / 100) 5 10 (fun n => ⟨n, 3, 1 / 2⟩),
    (((h.2.2.2 rfl rfl) (fun _ n => ⟨n, 3, 1 / 2⟩) 5 10).2).1⟩

/-! ## The carver: agent position -/

theorem inBounds_iff (W H x y : Int) :
    inBounds W H x y = true ↔ 0 ≤ x ∧ x < H ∧ 0 ≤ y ∧ y < W := by
  unfold inBounds
  simp only [Bool.and_eq_true, decide_eq_true_eq, ge_iff_le]
  tauto

theorem outOfBounds_eq_false_iff (W H x y : Int) :
    outOfBounds W H x y = false ↔ 0 ≤ x ∧ x < H ∧ 0 ≤ y ∧ y < W := by
  unfold outOfBounds
  simp only [Bool.or_eq_false_iff, decide_eq_false_iff_not, not_lt, ge_iff_le, not_le]
  tauto

theorem agentBounds_moveStep (P : Params) (rng : Rng) (s : AgentState)
    (hs : 0 ≤ s.agentX ∧ s.agentX < P.H ∧ 0 ≤ s.agentY ∧ s.agentY < P.W) :
    0 ≤ (moveStep P rng s).1.agentX ∧ (moveStep P rng s).1.agentX < P.H ∧
    0 ≤ (moveStep P rng s).1.agentY ∧ (moveStep P rng s).1.agentY < P.W := by
  unfold moveStep
  simp only
  split
  · exact hs
  · next h =>
    simp only [Bool.not_eq_true] at h
    exact (outOfBounds_eq_false_iff _ _ _ _).mp h

theorem agentBounds_innerStep (P : Params) (rng : Rng) (s : AgentState)
    (hs : 0 ≤ s.agentX ∧ s.agentX < P.H ∧ 0 ≤ s.agentY ∧ s.agentY < P.W) :
    0 ≤ (innerStep P rng s).1.agentX ∧ (innerStep P rng s).1.agentX < P.H ∧
    0 ≤ (innerStep P rng s).1.agentY ∧ (innerStep P rng s).1.agentY < P.W := by
  unfold innerStep
  simp only
  apply agentBounds_moveStep
  rw [(dirStep_frame P rng _).1, (dirStep_frame P rng _).2.1, (roomStep_frame P rng _).1,
    (roomStep_frame P rng _).2.1, (markStep_frame P _).1, (markStep_frame P _).2.1]
  exact hs

theorem agentBounds_initAgent (m : Map) (P : Params) (agentX agentY : Int) (rng : Rng)
    (hW : 0 < P.W) (hH : 0 < P.H) :
    0 ≤ (initAgent m P agentX agentY rng).agentX ∧
    (initAgent m P agentX agentY rng).agentX < P.H ∧
    0 ≤ (initAgent m P agentX agentY rng).agentY ∧
    (initAgent m P agentX agentY rng).agentY < P.W := by
  unfold initAgent
  split
  · exact ⟨Int.emod_nonneg _ (by omega), Int.emod_lt_of_pos _ hH,
      Int.emod_nonneg _ (by omega), Int.emod_lt_of_pos _ hW⟩
  · next h =>
    simp only [Bool.not_eq_true] at h
    exact (outOfBounds_eq_false_iff _ _ _ _).mp h

theorem drunkAgent_eq (m : Map) (P : Params) (agentX agentY : Int) (rng : Rng) :
    drunkAgent m P.W P.H P.J P.I P.roomSizeX P.roomSizeY P.probGenerateRoom
        P.probIncreaseRoom P.probChangeDirection P.probIncreaseChange agentX agentY rng =
      outerLoop P rng P.J.toNat (initAgent m P agentX agentY rng) := rfl

/-- C6: for `W, H > 0` and every incoming agent position, also an out-of-bounds one,
the position left by `drunkAgent` is a cell of the grid, `0 ≤ agentX < H` and
`0 ≤ agentY < W`; the position the walk starts from (after the reseed) is already in
bounds, and an in-bounds position stays in bounds over every inner step. -/
theorem drunkAgent_agent_inBounds (m : Map) (P : Params) (agentX agentY : Int) (rng : Rng)
    (hm : HasDims P.W P.H m) (hW : 0 < P.W) (hH : 0 < P.H) :
    InGrid P.W P.H
      (drunkAgent m P.W P.H P.J P.I P.roomSizeX P.roomSizeY P.probGenerateRoom
        P.probIncreaseRoom P.probChangeDirection P.probIncreaseChange
        agentX agentY rng).agentX
      (drunkAgent m P.W P.H P.J P.I P.roomSizeX P.roomSizeY P.probGenerateRoom
        P.probIncreaseRoom P.probChangeDirection P.probIncreaseChange
        agentX agentY rng).agentY ∧
    InGrid P.W P.H (initAgent m P agentX agentY rng).agentX
      (initAgent m P agentX agentY rng).agentY ∧
    (∀ s : AgentState, InGrid P.W P.H s.agentX s.agentY →
      InGrid P.W P.H (innerStep P rng s).1.agentX (innerStep P rng s).1.agentY) := by
  have _ := hm
  have hinit := agentBounds_initAgent m P agentX agentY rng hW hH
  have hstep := agentBounds_innerStep P rng
  refine ⟨?_, hinit, hstep⟩
  rw [drunkAgent_eq]
  exact outerLoop_preserves P rng
    (fun a : AgentState => 0 ≤ a.agentX ∧ a.agentX < P.H ∧ 0 ≤ a.agentY ∧ a.agentY < P.W)
    hstep _ _ hinit

theorem drunkAgent_agent_inBounds_witness :
    InGrid 20 10
      (drunkAgent (List.replicate 10 (List.replicate 20 0)) 20 10 5 10 5 3 (1 / 10) (1 / 20) (1 / 5) (3 / 100)
        (-1) 10 (fun _ => ⟨7, 0, 0⟩)).agentX
      (drunkAgent (List.replicate 10 (List.replicate 20 0)) 20 10 5 10 5 3 (1 / 10) (1 / 20) (1 / 5) (3 / 100)
        (-1) 10 (fun _ => ⟨7, 0, 0⟩)).agentY :=
  (drunkAgent_agent_inBounds (List.replicate 10 (List.replicate 20 0))
    ⟨20, 10, 5, 10, 5, 3, 1 / 10, 1 / 20, 1 / 5, 3 / 100⟩ (-1) 10 (fun _ => ⟨7, 0, 0⟩)
    (by decide) (by decide) (by decide)).1


/-! ## The carver: where it writes -/

theorem writes_stampRoom (P : Params) (s : AgentState) :
    ∀ p ∈ (stampRoom P s).writes, p ∈ s.writes ∨ InGrid P.W P.H p.1 p.2 := by
  unfold stampRoom
  refine foldl_preserves
    (fun a : AgentState => ∀ p ∈ a.writes, p ∈ s.writes ∨ InGrid P.W P.H p.1 p.2)
    _ _ s (fun p hp => Or.inl hp) (fun a x hx ha => ?_)
  refine foldl_preserves
    (fun a : AgentState => ∀ p ∈ a.writes, p ∈ s.writes ∨ InGrid P.W P.H p.1 p.2)
    (fun a y => writeOne a x y) _ a ha (fun b y hy hb => ?_)
  intro p hp
  rcases List.mem_cons.mp hp with h | h
  · right
    rw [mem_forRange] at hx hy
    subst h
    unfold InGrid
    simp only
    omega
  · exact hb p h

theorem writes_innerStep (P : Params) (rng : Rng) (s : AgentState)
    (hs : ∀ p ∈ s.writes, InGrid P.W P.H p.1 p.2) :
    ∀ p ∈ (innerStep P rng s).1.writes, InGrid P.W P.H p.1 p.2 := by
  unfold innerStep
  simp only
  rw [(moveStep_frame P rng _).2.2, (dirStep_frame P rng _).2.2.2.2]
  have hmark : ∀ p ∈ (markStep P { s with visited := (s.agentX, s.agentY) :: s.visited }).writes,
      InGrid P.W P.H p.1 p.2 := by
    unfold markStep
    split
    · next h =>
      intro p hp
      rcases List.mem_cons.mp hp with h' | h'
      · subst h'
        exact (inBounds_iff _ _ _ _).mp h
      · exact hs p h'
    · exact hs
  unfold roomStep
  split
  · intro p hp
    rcases writes_stampRoom P _ p hp with h | h
    · exact hmark p h
    · exact h
  · exact hmark

/-- C7: `drunkAgent` never writes outside the grid.  On a grid of `H` rows of `W` cells
(which the map stays throughout), for every agent position, every room size (larger
than the grid, zero or negative included) and every sequence of draws, every index pair
`(x, y)` of an executed assignment `newMap[x][y] = 1`, whether the agent mark or a cell
of a room stamp, satisfies `0 ≤ x < H` and `0 ≤ y < W`; and a room stamp alone, from any
state (the agent in a corner included), writes only to such pairs. -/
theorem drunkAgent_writes_inGrid (m : Map) (P : Params) (agentX agentY : Int) (rng : Rng)
    (hm : HasDims P.W P.H m) :
    HasDims P.W P.H
      (drunkAgent m P.W P.H P.J P.I P.roomSizeX P.roomSizeY P.probGenerateRoom
        P.probIncreaseRoom P.probChangeDirection P.probIncreaseChange
        agentX agentY rng).newMap ∧
    (∀ p ∈ (drunkAgent m P.W P.H P.J P.I P.roomSizeX P.roomSizeY P.probGenerateRoom
        P.probIncreaseRoom P.probChangeDirection P.probIncreaseChange
        agentX agentY rng).writes, InGrid P.W P.H p.1 p.2) ∧
    (∀ s : AgentState, ∀ p ∈ (stampRoom P s).writes,
      p ∈ s.writes ∨ InGrid P.W P.H p.1 p.2) := by
  refine ⟨drunkAgent_map (HasDims P.W P.H) (fun _ x y h => hasDims_setCell x y 1 h) m _ _ _ _
    _ _ _ _ _ _ agentX agentY rng hm, ?_, writes_stampRoom P⟩
  rw [drunkAgent_eq]
  refine outerLoop_preserves P rng
    (fun a : AgentState => ∀ p ∈ a.writes, InGrid P.W P.H p.1 p.2)
    (writes_innerStep P rng) _ _ ?_
  unfold initAgent
  split <;> simp

theorem drunkAgent_writes_inGrid_witness :
    HasDims 3 2 (drunkAgent [[0, 0, 0], [0, 0, 0]] 3 2 4 4 7 (-2) 1 0 1 0 1 2
        (fun n => ⟨n, 1, 0⟩)).newMap ∧
    (drunkAgent [[0, 0, 0], [0, 0, 0]] 3 2 4 4 7 (-2) 1 0 1 0 1 2
        (fun n => ⟨n, 1, 0⟩)).writes.all (fun p => decide (InGrid 3 2 p.1 p.2)) = true :=
  have h := drunkAgent_writes_inGrid [[0, 0, 0], [0, 0, 0]] ⟨3, 2, 4, 4, 7, -2, 1, 0, 1, 0⟩ 1 2
    (fun n => ⟨n, 1, 0⟩) (by decide)
  ⟨h.1, List.all_eq_true.mpr (fun p hp => decide_eq_true (h.2.1 p hp))⟩

/-! ## The carver: visited cells are active -/

theorem getCell_setCell_one {m : Map} {x' y' : Int} (x y : Int) (h : getCell m x' y' = 1) :
    getCell (setCell m x y 1) x' y' = 1 := by
  by_cases hsame : x' = x ∧ y' = y
  · obtain ⟨rfl, rfl⟩ := hsame
    unfold getCell at h
    split at h
    · next h0 =>
      have hxl : x'.toNat < m.length := by
        by_contra hc
        rw [List.getD_eq_default m _ (by omega)] at h
        simp at h
      rw [List.getD_eq_getElem _ _ hxl] at h
      have hyl : y'.toNat < (m[x'.toNat]).length := by
        by_contra hc
        rw [List.getD_eq_default _ _ (by omega)] at h
        simp at h
      unfold getCell setCell
      simp only [h0, and_self, if_true]
      simp [List.getD_eq_getElem?_getD, List.getElem?_set, hxl, hyl]
    · simp at h
  · rw [getCell_setCell_other]
    · exact h
    · by_contra hc
      push_neg at hc
      exact hsame hc

theorem visitedActive_innerStep (P : Params) (rng : Rng) (s : AgentState)
    (hd : HasDims P.W P.H s.newMap)
    (ha : 0 ≤ s.agentX ∧ s.agentX < P.H ∧ 0 ≤ s.agentY ∧ s.agentY < P.W)
    (hv : ∀ p ∈ s.visited, getCell s.newMap p.1 p.2 = 1) :
    ∀ p ∈ (innerStep P rng s).1.visited, getCell (innerStep P rng s).1.newMap p.1 p.2 = 1 := by
  intro p hp
  rw [visited_innerStep] at hp
  rcases List.mem_cons.mp hp with h | h
  · subst h
    unfold innerStep
    simp only
    rw [(moveStep_frame P rng _).2.1, (dirStep_frame P rng _).2.2.2.1]
    refine roomStep_map (fun m => getCell m s.agentX s.agentY = 1)
      (fun _ x y hq => getCell_setCell_one x y hq) P rng _ ?_
    unfold markStep
    rw [if_pos ((inBounds_iff _ _ _ _).mpr ha)]
    exact getCell_setCell_same 1 hd ha.1 ha.2.1 ha.2.2.1 ha.2.2.2
  · exact innerStep_map (fun m => getCell m p.1 p.2 = 1)
      (fun _ x y hq => getCell_setCell_one x y hq) P rng s (hv p h)

theorem walkInv_innerStep (P : Params) (rng : Rng) (s : AgentState) (hs : WalkInv P s) :
    WalkInv P (innerStep P rng s).1 :=
  ⟨innerStep_map (HasDims P.W P.H) (fun _ x y h => hasDims_setCell x y 1 h) P rng s hs.1,
    agentBounds_innerStep P rng s hs.2.1,
    visitedActive_innerStep P rng s hs.1 hs.2.1 hs.2.2⟩

theorem walkInv_initAgent (m : Map) (P : Params) (agentX agentY : Int) (rng : Rng)
    (hm : HasDims P.W P.H m) (hW : 0 < P.W) (hH : 0 < P.H) :
    WalkInv P (initAgent m P agentX agentY rng) := by
  refine ⟨?_, agentBounds_initAgent m P agentX agentY rng hW hH, ?_⟩
  · unfold initAgent
    split <;> exact hm
  · unfold initAgent
    split <;> simp

theorem mem_visited_innerStep (P : Params) (rng : Rng) (p : Int × Int) (a : AgentState)
    (ha : p ∈ a.visited) : p ∈ (innerStep P rng a).1.visited := by
  rw [visited_innerStep]
  exact List.mem_cons_of_mem _ ha

theorem mem_visited_innerLoop (P : Params) (rng : Rng) (n : Nat) (s : AgentState) :
    (s.agentX, s.agentY) ∈ (innerLoop P rng (n + 1) s).visited := by
  have h0 : (s.agentX, s.agentY) ∈ (innerStep P rng s).1.visited := by
    rw [visited_innerStep]
    exact List.mem_cons_self _ _
  unfold innerLoop
  simp only
  split
  · exact h0
  · exact innerLoop_preserves P rng (fun a => (s.agentX, s.agentY) ∈ a.visited)
      (mem_visited_innerStep P rng _) n _ h0

theorem mem_visited_outerLoop (P : Params) (rng : Rng) (j i : Nat) (hI : P.I.toNat = i + 1)
    (s : AgentState) : (s.agentX, s.agentY) ∈ (outerLoop P rng (j + 1) s).visited := by
  unfold outerLoop
  rw [hI]
  exact outerLoop_preserves P rng (fun a => (s.agentX, s.agentY) ∈ a.visited)
    (mem_visited_innerStep P rng _) j _ (mem_visited_innerLoop P rng i s)

/-- C8: on a grid of `H` rows of `W` cells with `W, H > 0` and for `J ≥ 1`, `I ≥ 1`, the
grid returned by `drunkAgent` has value `1` at every cell the agent occupied at the
start of an executed inner step; the cell the walk starts from is one of them, so the
returned grid is `1` there (at the incoming position when that is in bounds) and
contains a cell of the grid equal to `1`. -/
theorem drunkAgent_marks_visited (m : Map) (P : Params) (agentX agentY : Int) (rng : Rng)
    (hm : HasDims P.W P.H m) (hW : 0 < P.W) (hH : 0 < P.H) (hJ : 1 ≤ P.J) (hI : 1 ≤ P.I) :
    (∀ p ∈ (drunkAgent m P.W P.H P.J P.I P.roomSizeX P.roomSizeY P.probGenerateRoom
        P.probIncreaseRoom P.probChangeDirection P.probIncreaseChange
        agentX agentY rng).visited,
      getCell (drunkAgent m P.W P.H P.J P.I P.roomSizeX P.roomSizeY P.probGenerateRoom
        P.probIncreaseRoom P.probChangeDirection P.probIncreaseChange
        agentX agentY rng).newMap p.1 p.2 = 1) ∧
    ((initAgent m P agentX agentY rng).agentX, (initAgent m P agentX agentY rng).agentY) ∈
      (drunkAgent m P.W P.H P.J P.I P.roomSizeX P.roomSizeY P.probGenerateRoom
        P.probIncreaseRoom P.probChangeDirection P.probIncreaseChange
        agentX agentY rng).visited ∧
    (InGrid P.W P.H agentX agentY →
      getCell (drunkAgent m P.W P.H P.J P.I P.roomSizeX P.roomSizeY P.probGenerateRoom
        P.probIncreaseRoom P.probChangeDirection P.probIncreaseChange
        agentX agentY rng).newMap agentX agentY = 1) ∧
    (∃ x y : Int, InGrid P.W P.H x y ∧
      getCell (drunkAgent m P.W P.H P.J P.I P.roomSizeX P.roomSizeY P.probGenerateRoom
        P.probIncreaseRoom P.probChangeDirection P.probIncreaseChange
        agentX agentY rng).newMap x y = 1) := by
  rw [drunkAgent_eq]
  have hinv : WalkInv P (outerLoop P rng P.J.toNat (initAgent m P agentX agentY rng)) :=
    outerLoop_preserves P rng (WalkInv P) (walkInv_innerStep P rng) _ _
      (walkInv_initAgent m P agentX agentY rng hm hW hH)
  obtain ⟨j, hj⟩ : ∃ j, P.J.toNat = j + 1 := ⟨P.J.toNat - 1, by omega⟩
  obtain ⟨i, hi⟩ : ∃ i, P.I.toNat = i + 1 := ⟨P.I.toNat - 1, by omega⟩
  have hstart := mem_visited_outerLoop P rng j i hi (initAgent m P agentX agentY rng)
  rw [← hj] at hstart
  have hone := hinv.2.2 _ hstart
  refine ⟨hinv.2.2, hstart, ?_, ⟨_, _, agentBounds_initAgent m P agentX agentY rng hW hH, hone⟩⟩
  intro hin
  have hnot : outOfBounds P.W P.H agentX agentY = false :=
    (outOfBounds_eq_false_iff _ _ _ _).mpr hin
  have hx : (initAgent m P agentX agentY rng).agentX = agentX := by
    unfold initAgent; rw [hnot]; rfl
  have hy : (initAgent m P agentX agentY rng).agentY = agentY := by
    unfold initAgent; rw [hnot]; rfl
  rw [hx, hy] at hone
  exact hone

theorem drunkAgent_marks_visited_witness :
    getCell (drunkAgent (List.replicate 10 (List.replicate 20 0)) 20 10 5 10 5 3
      (1 / 10) (1 / 20) (1 / 5) (3 / 100) 5 10 (fun n => ⟨n, 3, 1 / 2⟩)).newMap 5 10 = 1 :=
  (drunkAgent_marks_visited (List.replicate 10 (List.replicate 20 0))
    ⟨20, 10, 5, 10, 5, 3, 1 / 10, 1 / 20, 1 / 5, 3 / 100⟩ 5 10 (fun n => ⟨n, 3, 1 / 2⟩)
    (by decide) (by decide) (by decide) (by decide) (by decide)).2.2.1 (by decide)


/-! ## The carver: one inner step moves one cell or breaks -/

theorem unit_offset (d : Fin 4) :
    (dx d, dy d) ∈ [((-1 : Int), (0 : Int)), (1, 0), (0, -1), (0, 1)] := by
  revert d
  decide

theorem moveStep_break (P : Params) (rng : Rng) (t : AgentState)
    (h : outOfBounds P.W P.H (t.agentX + dx t.dir) (t.agentY + dy t.dir) = true) :
    (moveStep P rng t).2 = true ∧ (moveStep P rng t).1.agentX = t.agentX ∧
    (moveStep P rng t).1.agentY = t.agentY := by
  unfold moveStep
  simp only
  rw [if_pos h]
  exact ⟨rfl, rfl, rfl⟩

theorem moveStep_move (P : Params) (rng : Rng) (t : AgentState)
    (h : outOfBounds P.W P.H (t.agentX + dx t.dir) (t.agentY + dy t.dir) = false) :
    (moveStep P rng t).2 = false ∧ (moveStep P rng t).1.agentX = t.agentX + dx t.dir ∧
    (moveStep P rng t).1.agentY = t.agentY + dy t.dir := by
  unfold moveStep
  simp only
  rw [if_neg (by rw [h]; simp)]
  exact ⟨rfl, rfl, rfl⟩

/-- C9: in an inner step of `drunkAgent`, let `(nx, ny)` be the agent position plus the
unit offset of the direction in force after the direction-change statement.  If
`(nx, ny)` is out of bounds, the step ends in `break` and leaves the agent position
unchanged; no further inner step of this outer iteration runs (the inner loop ends in
the state left by this step, from which the next outer iteration starts).  Otherwise the
step does not break, the agent position becomes exactly `(nx, ny)`, it differs from the
previous position by one of `(-1,0)`, `(1,0)`, `(0,-1)`, `(0,1)`, and the inner loop goes
on from there. -/
theorem innerStep_moves_or_breaks (P : Params) (rng : Rng) (s : AgentState) :
    let d := (dirStep P rng (roomStep P rng
      (markStep P { s with visited := (s.agentX, s.agentY) :: s.visited }))).dir
    let nx := s.agentX + dx d
    let ny := s.agentY + dy d
    (outOfBounds P.W P.H nx ny = true →
      (innerStep P rng s).2 = true ∧
      (innerStep P rng s).1.agentX = s.agentX ∧ (innerStep P rng s).1.agentY = s.agentY ∧
      (∀ n : Nat, innerLoop P rng (n + 1) s = (innerStep P rng s).1) ∧
      (∀ n j : Nat, P.I.toNat = n + 1 →
        outerLoop P rng (j + 1) s = outerLoop P rng j (innerStep P rng s).1)) ∧
    (outOfBounds P.W P.H nx ny = false →
      (innerStep P rng s).2 = false ∧
      (innerStep P rng s).1.agentX = nx ∧ (innerStep P rng s).1.agentY = ny ∧
      ((innerStep P rng s).1.agentX - s.agentX, (innerStep P rng s).1.agentY - s.agentY) ∈
        [((-1 : Int), (0 : Int)), (1, 0), (0, -1), (0, 1)] ∧
      (∀ n : Nat, innerLoop P rng (n + 1) s = innerLoop P rng n (innerStep P rng s).1)) := by
  intro d nx ny
  have hx : (dirStep P rng (roomStep P rng
      (markStep P { s with visited := (s.agentX, s.agentY) :: s.visited }))).agentX
        = s.agentX := by
    rw [(dirStep_frame P rng _).1, (roomStep_frame P rng _).1, (markStep_frame P _).1]
  have hy : (dirStep P rng (roomStep P rng
      (markStep P { s with visited := (s.agentX, s.agentY) :: s.visited }))).agentY
        = s.agentY := by
    rw [(dirStep_frame P rng _).2.1, (roomStep_frame P rng _).2.1, (markStep_frame P _).2.1]
  constructor
  · intro hout
    have hstep : (innerStep P rng s).2 = true ∧
        (innerStep P rng s).1.agentX = s.agentX ∧ (innerStep P rng s).1.agentY = s.agentY := by
      have hb := moveStep_break P rng _ (by rw [hx, hy]; exact hout)
      rw [hx, hy] at hb
      exact hb
    have hloop : ∀ n : Nat, innerLoop P rng (n + 1) s = (innerStep P rng s).1 := by
      intro n
      conv_lhs => unfold innerLoop
      simp only [hstep.1, if_true]
    refine ⟨hstep.1, hstep.2.1, hstep.2.2, hloop, ?_⟩
    intro n j hn
    conv_lhs => unfold outerLoop
    rw [hn, hloop n]
  · intro hin
    have hstep : (innerStep P rng s).2 = false ∧
        (innerStep P rng s).1.agentX = nx ∧ (innerStep P rng s).1.agentY = ny := by
      have hb := moveStep_move P rng _ (by rw [hx, hy]; exact hin)
      rw [hx, hy] at hb
      exact hb
    refine ⟨hstep.1, hstep.2.1, hstep.2.2, ?_, ?_⟩
    · rw [hstep.2.1, hstep.2.2]
      have e1 : nx - s.agentX = dx d := by simp only [nx]; ring
      have e2 : ny - s.agentY = dy d := by simp only [ny]; ring
      rw [e1, e2]
      exact unit_offset d
    · intro n
      conv_lhs => unfold innerLoop
      simp only [hstep.1]
      rfl

theorem innerStep_moves_or_breaks_witness :
    (innerStep ⟨3, 2, 1, 1, 1, 1, 0, 0, 0, 0⟩ (fun _ => ⟨0, 1, 1⟩)
      ⟨[[0, 0, 0], [0, 0, 0]], 0, 0, 0, 0, 0, 1, [], []⟩).2 = true ∧
    (innerStep ⟨3, 2, 1, 1, 1, 1, 0, 0, 0, 0⟩ (fun _ => ⟨0, 1, 1⟩)
      ⟨[[0, 0, 0], [0, 0, 0]], 0, 0, 0, 0, 1, 1, [], []⟩).1.agentX = 1 :=
  ⟨((innerStep_moves_or_breaks ⟨3, 2, 1, 1, 1, 1, 0, 0, 0, 0⟩ (fun _ => ⟨0, 1, 1⟩)
      ⟨[[0, 0, 0], [0, 0, 0]], 0, 0, 0, 0, 0, 1, [], []⟩).1 (by
        decide)).1,
    ((innerStep_moves_or_breaks ⟨3, 2, 1, 1, 1, 1, 0, 0, 0, 0⟩ (fun _ => ⟨0, 1, 1⟩)
      ⟨[[0, 0, 0], [0, 0, 0]], 0, 0, 0, 0, 1, 1, [], []⟩).2 (by
        decide)).2.1⟩

/-! ## The smoother: bounds on the active count -/

theorem rounded_le_one {c t : Int} (hc : 0 ≤ c) (hct : c ≤ t) (ht : 0 < t) :
    roundBinary64 ((c : ℚ) / (t : ℚ)) ≤ 1 := by
  have hcq : (0 : ℚ) ≤ (c : ℚ) := by exact_mod_cast hc
  have htq : (0 : ℚ) < (t : ℚ) := by exact_mod_cast ht
  have hle : (c : ℚ) ≤ (t : ℚ) := by exact_mod_cast hct
  have hq : (c : ℚ) / (t : ℚ) ≤ 1 := (div_le_one htq).mpr hle
  have hm := roundBinary64_mono (div_nonneg hcq (le_of_lt htq)) hq
  rwa [roundBinary64_one] at hm

theorem cellValue_one_eq_zero {m : Map} (hb : Binary m) {R : Int} (hR : 0 ≤ R)
    (hbound : (2 * R + 1) ^ 2 < 2 ^ 31) (W H x y : Int) :
    cellValue m W H R 1 x y = 0 := by
  rw [cellValue_eq_rounded hb hR hbound, if_neg]
  have hpos : 0 < specTotalCount R := by
    rw [specTotalCount_eq hR]
    positivity
  exact not_lt.mpr (rounded_le_one (specActiveCount_nonneg hb W H R x y)
    (specActiveCount_le_total hb W H R x y) hpos)

/-- C11 (counterexample): on the 1×1 zero grid with `R = 23170` and `U = 1` the `int`
counters wrap (`count = -2147479016`, `total = -2147479015`), their quotient exceeds `1`
and `cellularAutomata` sets the cell to `1`. -/
theorem cellularAutomata_threshold_one_overflow :
    neighbourhood [[0]] 1 1 23170 0 0 = (-2147479016, -2147479015) ∧
    getCell (cellularAutomata [[0]] 1 1 23170 1) 0 0 = 1 := by
  refine ⟨neighbourhood_overflow_zero, ?_⟩
  rw [getCell_cellularAutomata (by decide) 23170 _ (by decide) (by decide) (by decide)
    (by decide)]
  exact cellValue_overflow_zero

/-- C11 (amended): with `U = 1` the smoother yields an all-inactive grid: on a grid of
`H` rows of `W` cells that are `0` or `1` (the all-zero grid included) and for `R ≥ 0`
with `(2R+1)² < 2^31`, the result of `cellularAutomata` has the same dimensions and
every cell of it is `0`, because the active count never exceeds the total count. -/
theorem cellularAutomata_threshold_one (m : Map) (W H R : Int) (hm : WellFormed W H m)
    (hR : 0 ≤ R) (hbound : (2 * R + 1) ^ 2 < 2 ^ 31) :
    HasDims W H (cellularAutomata m W H R 1) ∧
    ∀ x y : Int, InGrid W H x y → getCell (cellularAutomata m W H R 1) x y = 0 := by
  refine ⟨hasDims_cellularAutomata hm.1 R 1, ?_⟩
  intro x y hxy
  rw [getCell_cellularAutomata hm.1 R 1 hxy.1 hxy.2.1 hxy.2.2.1 hxy.2.2.2]
  exact cellValue_one_eq_zero hm.2 hR hbound W H x y

theorem cellularAutomata_threshold_one_witness :
    HasDims 2 3 (cellularAutomata [[0, 1], [1, 1], [0, 0]] 2 3 1 1) ∧
    getCell (cellularAutomata [[0, 1], [1, 1], [0, 0]] 2 3 1 1) 1 1 = 0 :=
  have h := cellularAutomata_threshold_one [[0, 1], [1, 1], [0, 0]] 2 3 1
    (by decide) (by decide) (by decide)
  ⟨h.1, h.2 1 1 (by decide)⟩

/-! ## The smoother is monotone -/

theorem specActiveCount_mono {A B : Map} (W H R x y : Int)
    (hAB : ∀ nx ny : Int, 0 ≤ nx → nx < H → 0 ≤ ny → ny < W →
      getCell A nx ny ≤ getCell B nx ny) :
    specActiveCount A W H R x y ≤ specActiveCount B W H R x y := by
  unfold specActiveCount
  refine Finset.sum_le_sum (fun d _ => ?_)
  split
  · next h => exact hAB _ _ h.1 h.2.1 h.2.2.1 h.2.2.2
  · exact le_refl 1

theorem cellValue_mono {A B : Map} (hA : Binary A) (hB : Binary B) {R : Int} (hR : 0 ≤ R)
    (hbound : (2 * R + 1) ^ 2 < 2 ^ 31) (W H : Int) {U1 U2 : ℚ} (x y : Int)
    (hAB : ∀ nx ny : Int, 0 ≤ nx → nx < H → 0 ≤ ny → ny < W →
      getCell A nx ny ≤ getCell B nx ny) (hU : U2 ≤ U1) :
    cellValue A W H R U1 x y ≤ cellValue B W H R U2 x y := by
  rw [cellValue_eq_rounded hA hR hbound, cellValue_eq_rounded hB hR hbound]
  have hpos : (0 : ℚ) < (specTotalCount R : ℚ) := by
    have : 0 < specTotalCount R := by
      rw [specTotalCount_eq hR]
      positivity
    exact_mod_cast this
  have h0 : (0 : ℚ) ≤ (specActiveCount A W H R x y : ℚ) := by
    exact_mod_cast specActiveCount_nonneg hA W H R x y
  have hle : (specActiveCount A W H R x y : ℚ) ≤ (specActiveCount B W H R x y : ℚ) := by
    exact_mod_cast specActiveCount_mono W H R x y hAB
  have hm := roundBinary64_mono (div_nonneg h0 (le_of_lt hpos))
    (div_le_div_of_nonneg_right hle (le_of_lt hpos))
  by_cases h : roundBinary64
      ((specActiveCount A W H R x y : ℚ) / (specTotalCount R : ℚ)) > U1
  · rw [if_pos h, if_pos (lt_of_le_of_lt hU (lt_of_lt_of_le h hm))]
  · rw [if_neg h]
    split <;> decide

/-- C18 (counterexample): with `R = 23170` and `U1 = U2 = 1` on the 1×1 grids
`A = [[0]] ≤ B = [[1]]` the `int` counters wrap: for `A` the quotient of the wrapped
counters exceeds `1` and the cell becomes `1`, for `B` the two counters are equal, the
quotient is `1` and the cell becomes `0`. -/
theorem cellularAutomata_mono_overflow :
    getCell [[0]] 0 0 ≤ getCell [[1]] 0 0 ∧
    getCell (cellularAutomata [[0]] 1 1 23170 1) 0 0 = 1 ∧
    getCell (cellularAutomata [[1]] 1 1 23170 1) 0 0 = 0 := by
  refine ⟨by decide, ?_, ?_⟩
  · rw [getCell_cellularAutomata (by decide) 23170 _ (by decide) (by decide) (by decide)
      (by decide)]
    exact cellValue_overflow_zero
  · rw [getCell_cellularAutomata (by decide) 23170 _ (by decide) (by decide) (by decide)
      (by decide)]
    unfold cellValue
    rw [neighbourhood_of_allOnes (W := 1) (H := 1) (by decide) (by decide) (by decide)]
    simp only
    rw [ratioGt_self (wrapInt32_odd_sq_ne_zero 23170)]
    simp

/-- C18 (amended): `cellularAutomata` is monotone when the counters do not overflow: for
`R ≥ 0` with `(2R+1)² < 2^31`, binary grids `A` and `B` of the same dimensions with
`A[x][y] ≤ B[x][y]` at every cell, and thresholds `U1 ≥ U2`, the result for `A` with
`U1` is at most the result for `B` with `U2` at every cell. -/
theorem cellularAutomata_mono (A B : Map) (W H R : Int) (U1 U2 : ℚ)
    (hA : WellFormed W H A) (hB : WellFormed W H B) (hR : 0 ≤ R)
    (hbound : (2 * R + 1) ^ 2 < 2 ^ 31)
    (hAB : ∀ x y : Int, InGrid W H x y → getCell A x y ≤ getCell B x y) (hU : U2 ≤ U1) :
    ∀ x y : Int, InGrid W H x y →
      getCell (cellularAutomata A W H R U1) x y ≤ getCell (cellularAutomata B W H R U2) x y := by
  intro x y hxy
  rw [getCell_cellularAutomata hA.1 R U1 hxy.1 hxy.2.1 hxy.2.2.1 hxy.2.2.2,
    getCell_cellularAutomata hB.1 R U2 hxy.1 hxy.2.1 hxy.2.2.1 hxy.2.2.2]
  exact cellValue_mono hA.2 hB.2 hR hbound W H x y
    (fun nx ny h1 h2 h3 h4 => hAB nx ny ⟨h1, h2, h3, h4⟩) hU

theorem cellularAutomata_mono_witness :
    getCell (cellularAutomata [[0, 1, 0]] 3 1 1 (3 / 4)) 0 1 ≤
      getCell (cellularAutomata [[1, 1, 0]] 3 1 1 (1 / 2)) 0 1 :=
  cellularAutomata_mono [[0, 1, 0]] [[1, 1, 0]] 3 1 1 (3 / 4) (1 / 2)
    (by decide) (by decide) (by decide) (by decide)
    (by
      intro x y h
      obtain ⟨h1, h2, h3, h4⟩ := h
      have hx : x = 0 := by omega
      subst hx
      interval_cases y <;> decide)
    (by norm_num) 0 1 (by decide)

/-! ## The smoother with radius zero -/

theorem setCell_getCell_self (m : Map) (x y : Int) : setCell m x y (getCell m x y) = m := by
  unfold setCell getCell
  split
  · by_cases hxl : x.toNat < m.length
    · rw [List.getD_eq_getElem _ _ hxl]
      have hrow : (m[x.toNat]).set y.toNat ((m[x.toNat]).getD y.toNat 0) = m[x.toNat] := by
        by_cases hyl : y.toNat < (m[x.toNat]).length
        · rw [List.getD_eq_getElem _ _ hyl]
          exact list_set_self _ _ hyl
        · exact List.set_eq_of_length_le (by omega)
      rw [hrow]
      exact list_set_self _ _ hxl
    · exact List.set_eq_of_length_le (by omega)
  · rfl

theorem neighbourhood_radius_zero (m : Map) (W H x y : Int) :
    neighbourhood m W H 0 x y = (wrapInt32 (contribution m W H x y), 1) := by
  rw [neighbourhood_eq]
  have r : forRange (-0) (0 + 1) = [0] := by decide
  rw [r]
  simp only [List.map_cons, List.map_nil, List.sum_cons, List.sum_nil, add_zero]
  have e : wrapInt32 (((2 * (0 : Int) + 1).toNat : Int) * ((2 * (0 : Int) + 1).toNat : Int))
      = 1 := by decide
  rw [e]

theorem cellValue_radius_zero {W H : Int} {m : Map} (hb : Binary m) {U : ℚ}
    (hU0 : 0 ≤ U) (hU1 : U < 1) {x y : Int} (hxy : InGrid W H x y) :
    cellValue m W H 0 U x y = getCell m x y := by
  unfold cellValue ratioGt
  rw [neighbourhood_radius_zero]
  have hc : contribution m W H x y = getCell m x y := by
    rw [contribution_eq]
    exact if_pos hxy
  simp only [hc, one_ne_zero, if_false, Int.cast_one, div_one, gt_iff_lt, decide_eq_true_eq]
  rcases getCell_binary hb x y with h | h
  · rw [h, wrapInt32_zero, if_neg]
    rw [Int.cast_zero, roundBinary64_zero]
    exact not_lt.mpr hU0
  · rw [h, show wrapInt32 1 = 1 by decide, if_pos]
    rw [Int.cast_one, roundBinary64_one]
    exact hU1

/-- C17: with radius `R = 0` and a threshold `0 ≤ U < 1` the smoother is the identity on
binary grids: on a grid of `H` rows of `W` cells that are `0` or `1`, `cellularAutomata`
returns the input grid and `cellularAutomataInPlace` leaves it, so the two variants
agree for `R = 0`. -/
theorem smoother_radius_zero (m : Map) (W H : Int) (U : ℚ) (hm : WellFormed W H m)
    (hU0 : 0 ≤ U) (hU1 : U < 1) :
    cellularAutomata m W H 0 U = m ∧ cellularAutomataInPlace m W H 0 U = m ∧
    cellularAutomataInPlace m W H 0 U = cellularAutomata m W H 0 U := by
  have hstep : ∀ x ∈ forRange 0 H, ∀ y ∈ forRange 0 W,
      setCell m x y (cellValue m W H 0 U x y) = m := by
    intro x hx y hy
    rw [mem_forRange] at hx hy
    rw [cellValue_radius_zero hm.2 hU0 hU1 ⟨hx.1, hx.2, hy.1, hy.2⟩]
    exact setCell_getCell_self m x y
  have h1 : cellularAutomata m W H 0 U = m := by
    unfold cellularAutomata
    refine foldl_preserves (fun a => a = m) _ _ m rfl (fun a x hx ha => ?_)
    refine foldl_preserves (fun a => a = m) _ _ a ha (fun b y hy hb => ?_)
    rw [hb]
    exact hstep x hx y hy
  have h2 : cellularAutomataInPlace m W H 0 U = m := by
    unfold cellularAutomataInPlace
    refine foldl_preserves (fun a => a = m) _ _ m rfl (fun a x hx ha => ?_)
    refine foldl_preserves (fun a => a = m) _ _ a ha (fun b y hy hb => ?_)
    rw [hb]
    exact hstep x hx y hy
  exact ⟨h1, h2, h2.trans h1.symm⟩

theorem smoother_radius_zero_witness :
    cellularAutomata [[0, 1], [1, 1], [0, 0]] 2 3 0 (1 / 2) = [[0, 1], [1, 1], [0, 0]] ∧
    cellularAutomataInPlace [[0, 1], [1, 1], [0, 0]] 2 3 0 (1 / 2) =
      [[0, 1], [1, 1], [0, 0]] :=
  have h := smoother_radius_zero [[0, 1], [1, 1], [0, 0]] 2 3 (1 / 2) (by decide)
    (by norm_num) (by norm_num)
  ⟨h.1, h.2.1⟩

/-! ## The in-place smoother, cell by cell -/

theorem getCell_rowInPlace_other (g : Map → Int → Int) (x : Int) (ys : List Int) (m : Map)
    (x' y' : Int) (h : x' ≠ x ∨ y' ∉ ys) :
    getCell (ys.foldl (fun a y => setCell a x y (g a y)) m) x' y' = getCell m x' y' := by
  refine foldl_preserves (fun a : Map => getCell a x' y' = getCell m x' y')
    (fun a y => setCell a x y (g a y)) ys m rfl (fun a b hb ha => ?_)
  simp only
  rw [getCell_setCell_other, ha]
  rcases h with h | h
  · exact Or.inl h
  · exact Or.inr (fun hc => h (hc ▸ hb))

theorem getCell_gridInPlace_other (g : Map → Int → Int → Int) (xs ys : List Int) (m : Map)
    (x' y' : Int) (h : x' ∉ xs ∨ y' ∉ ys) :
    getCell (xs.foldl (fun a x => ys.foldl (fun a y => setCell a x y (g a x y)) a) m) x' y' =
      getCell m x' y' := by
  refine foldl_preserves (fun a : Map => getCell a x' y' = getCell m x' y')
    (fun a x => ys.foldl (fun a y => setCell a x y (g a x y)) a) xs m rfl
    (fun a b hb ha => ?_)
  simp only
  rw [getCell_rowInPlace_other (fun a y => g a b y) b ys a x' y', ha]
  rcases h with h | h
  · exact Or.inl (fun hc => h (hc ▸ hb))
  · exact Or.inr h

theorem wellFormed_rowInPlace {W H : Int} (R : Int) (U : ℚ) (x : Int) (ys : List Int)
    (m : Map) (hm : WellFormed W H m) :
    WellFormed W H (ys.foldl (fun a y => setCell a x y (cellValue a W H R U x y)) m) :=
  foldl_preserves (WellFormed W H) _ ys m hm
    (fun _ y _ ha => wellFormed_setCell x y ha (cellValue_binary _ _ _ _ _ _ _))

theorem getCell_rowInPlace {W H : Int} (R : Int) (U : ℚ) (x : Int) (hx0 : 0 ≤ x) (hx : x < H)
    (ys : List Int) (hys : ∀ y ∈ ys, 0 ≤ y ∧ y < W) (hnd : ys.Nodup) (m : Map)
    (hm : WellFormed W H m) (y' : Int) (hy' : y' ∈ ys) :
    ∃ m', WellFormed W H m' ∧
      getCell (ys.foldl (fun a y => setCell a x y (cellValue a W H R U x y)) m) x y' =
        cellValue m' W H R U x y' := by
  induction ys generalizing m with
  | nil => exact absurd hy' (List.not_mem_nil y')
  | cons y t ih =>
    rw [List.foldl_cons]
    have hnd' := List.nodup_cons.mp hnd
    by_cases hy : y' = y
    · subst hy
      refine ⟨m, hm, ?_⟩
      rw [getCell_rowInPlace_other (fun a y => cellValue a W H R U x y) x t _ x y'
        (Or.inr hnd'.1)]
      have hb := hys y' (List.mem_cons_self y' t)
      exact getCell_setCell_same _ hm.1 hx0 hx hb.1 hb.2
    · have hmem : y' ∈ t := by
        rcases List.mem_cons.mp hy' with h | h
        · exact absurd h hy
        · exact h
      exact ih (fun z hz => hys z (List.mem_cons_of_mem y hz)) hnd'.2 _
        (wellFormed_setCell x y hm (cellValue_binary _ _ _ _ _ _ _)) hmem

theorem getCell_gridInPlace {W H : Int} (R : Int) (U : ℚ)
    (xs : List Int) (hxs : ∀ x ∈ xs, 0 ≤ x ∧ x < H) (hxnd : xs.Nodup)
    (ys : List Int) (hys : ∀ y ∈ ys, 0 ≤ y ∧ y < W) (hynd : ys.Nodup) (m : Map)
    (hm : WellFormed W H m) (x' y' : Int) (hx' : x' ∈ xs) (hy' : y' ∈ ys) :
    ∃ m', WellFormed W H m' ∧
      getCell (xs.foldl (fun a x => ys.foldl
        (fun a y => setCell a x y (cellValue a W H R U x y)) a) m) x' y' =
        cellValue m' W H R U x' y' := by
  induction xs generalizing m with
  | nil => exact absurd hx' (List.not_mem_nil x')
  | cons x t ih =>
    rw [List.foldl_cons]
    have hnd' := List.nodup_cons.mp hxnd
    by_cases hx : x' = x
    · subst hx
      rw [getCell_gridInPlace_other (fun a x y => cellValue a W H R U x y) t ys _ x' y'
        (Or.inl hnd'.1)]
      have hb := hxs x' (List.mem_cons_self x' t)
      exact getCell_rowInPlace R U x' hb.1 hb.2 ys hys hynd m hm y' hy'
    · have hmem : x' ∈ t := by
        rcases List.mem_cons.mp hx' with h | h
        · exact absurd h hx
        · exact h
      exact ih (fun z hz => hxs z (List.mem_cons_of_mem x hz)) hnd'.2 _
        (wellFormed_rowInPlace R U x ys m hm) hmem

theorem getCell_cellularAutomataInPlace {W H : Int} {m : Map} (hm : WellFormed W H m)
    (R : Int) (U : ℚ) {x y : Int} (hxy : InGrid W H x y) :
    ∃ m', WellFormed W H m' ∧
      getCell (cellularAutomataInPlace m W H R U) x y = cellValue m' W H R U x y := by
  unfold cellularAutomataInPlace
  exact getCell_gridInPlace R U _ (fun x hx => by rw [mem_forRange] at hx; omega)
    (nodup_forRange 0 H) _ (fun y hy => by rw [mem_forRange] at hy; omega)
    (nodup_forRange 0 W) m hm x y
    ((mem_forRange 0 H x).mpr ⟨hxy.1, hxy.2.1⟩) ((mem_forRange 0 W y).mpr ⟨hxy.2.2.1, hxy.2.2.2⟩)

/-! ## Out-of-bounds neighbours close the border -/

theorem specOutOfBoundsCount_le {m : Map} (hb : Binary m) (W H R x y : Int) :
    specOutOfBoundsCount W H R x y ≤ specActiveCount m W H R x y := by
  unfold specOutOfBoundsCount specActiveCount
  refine Finset.sum_le_sum (fun d _ => ?_)
  split
  · rcases getCell_binary hb (x + d.1) (y + d.2) with h | h <;> omega
  · exact le_refl 1

theorem specOutOfBoundsCount_nonneg (W H R x y : Int) :
    0 ≤ specOutOfBoundsCount W H R x y := by
  unfold specOutOfBoundsCount
  refine Finset.sum_nonneg (fun d _ => ?_)
  split <;> decide

theorem cellValue_of_outOfBounds {m : Map} (hb : Binary m) {W H R : Int} (hR : 0 ≤ R)
    (hbound : (2 * R + 1) ^ 2 < 2 ^ 31) {U : ℚ} {x y : Int}
    (h : roundBinary64 ((specOutOfBoundsCount W H R x y : ℚ) / (((2 * R + 1) ^ 2 : Int) : ℚ))
      > U) :
    cellValue m W H R U x y = 1 := by
  rw [cellValue_eq_rounded hb hR hbound, if_pos]
  rw [specTotalCount_eq hR]
  have hpos : (0 : ℚ) < (((2 * R + 1) ^ 2 : Int) : ℚ) := by
    have : (0 : Int) < (2 * R + 1) ^ 2 := by positivity
    exact_mod_cast this
  have h0 : (0 : ℚ) ≤ (specOutOfBoundsCount W H R x y : ℚ) := by
    exact_mod_cast specOutOfBoundsCount_nonneg W H R x y
  have hle : (specOutOfBoundsCount W H R x y : ℚ) ≤ (specActiveCount m W H R x y : ℚ) := by
    exact_mod_cast specOutOfBoundsCount_le hb W H R x y
  have hm := roundBinary64_mono (div_nonneg h0 (le_of_lt hpos))
    (div_le_div_of_nonneg_right hle (le_of_lt hpos))
  exact lt_of_lt_of_le h hm

theorem five_le_window_sum (f : Int → Int → Int) (hnn : ∀ a b, 0 ≤ f a b) (a b : Int)
    (ha : a = -1 ∨ a = 1) (hb : b = -1 ∨ b = 1) (hrow : ∀ d, f a d = 1)
    (hcol : ∀ d, f d b = 1) :
    5 ≤ (([-1, 0, 1] : List Int).map
      (fun dx => (([-1, 0, 1] : List Int).map (fun dy => f dx dy)).sum)).sum := by
  simp only [List.map_cons, List.map_nil, List.sum_cons, List.sum_nil]
  have n1 := hnn (-1) (-1)
  have n2 := hnn (-1) 0
  have n3 := hnn (-1) 1
  have n4 := hnn 0 (-1)
  have n5 := hnn 0 0
  have n6 := hnn 0 1
  have n7 := hnn 1 (-1)
  have n8 := hnn 1 0
  have n9 := hnn 1 1
  have r1 := hrow (-1)
  have r2 := hrow 0
  have r3 := hrow 1
  have c1 := hcol (-1)
  have c2 := hcol 0
  have c3 := hcol 1
  rcases ha with ha | ha <;> rcases hb with hb | hb <;> subst ha <;> subst hb <;> omega

theorem specOutOfBoundsCount_corner {W H x y : Int}
    (hx : x = 0 ∨ x = H - 1) (hy : y = 0 ∨ y = W - 1) :
    5 ≤ specOutOfBoundsCount W H 1 x y := by
  have r : forRange (-1) (1 + 1) = [-1, 0, 1] := by decide
  unfold specOutOfBoundsCount
  rw [Finset.sum_product]
  simp only [sum_Icc_eq, r]
  refine five_le_window_sum
    (fun dx dy => if 0 ≤ x + dx ∧ x + dx < H ∧ 0 ≤ y + dy ∧ y + dy < W then 0 else 1)
    (fun a b => by simp only; split <;> decide)
    (if x = 0 then -1 else 1) (if y = 0 then -1 else 1)
    (by split <;> simp) (by split <;> simp) (fun d => ?_) (fun d => ?_)
  · simp only
    rw [if_neg]
    split <;> omega
  · simp only
    rw [if_neg]
    split <;> omega

theorem specOutOfBoundsCount_single {R : Int} (hR : 0 ≤ R) :
    specOutOfBoundsCount 1 1 R 0 0 = (2 * R + 1) ^ 2 - 1 := by
  rw [← specActiveCount_single_zero hR]
  unfold specOutOfBoundsCount specActiveCount
  refine Finset.sum_congr rfl (fun d _ => ?_)
  split
  · next h =>
    have h1 : d.1 = 0 := by omega
    have h2 : d.2 = 0 := by omega
    rw [h1, h2]
    decide
  · rfl

theorem roundBinary64_below_one : roundBinary64 (1 - 1 / 2 ^ 30) = 1 - 1 / 2 ^ 30 :=
  roundBinary64_eq_self (-1) (2 ^ 53 - 2 ^ 23) (by norm_num) (by norm_num) (by norm_num)
    (by norm_num)

theorem cellValue_overflow_positive :
    cellValue [[0]] 1 1 32768 (1 - 1 / 2 ^ 30) 0 0 = 0 := by
  have hn : neighbourhood [[0]] 1 1 32768 0 0 = (131072, 131073) := by
    refine Prod.ext ?_ ?_
    · rw [neighbourhood_count_wrap, specActiveCount_single_zero (by decide)]
      decide
    · rw [neighbourhood_total_wrap (by decide)]
      decide
  unfold cellValue ratioGt
  rw [hn]
  simp only [show (131073 : Int) ≠ 0 by decide, if_false]
  rw [if_neg]
  rw [decide_eq_true_eq]
  have hq : ((131072 : Int) : ℚ) / ((131073 : Int) : ℚ) ≤ 1 - 1 / 2 ^ 30 := by norm_num
  have hm := roundBinary64_mono (by norm_num) hq
  rw [roundBinary64_below_one] at hm
  exact not_lt.mpr hm

/-- C15 (counterexamples): more than `U · (2R+1)²` out-of-bounds offsets do not always
give `1`.  On the 3×3 zero grid with `R = 1` and `U` the double nearest to `1/3`, cell
`(0, 1)` has `3 > 9 U` offsets out of bounds, but the rounded quotient `3/9` equals `U`
and `cellularAutomata` writes `0`.  On the 1×1 zero grid with `R = 32768` and
`U = 1 - 2^-30` all but one of the `65537²` offsets are out of bounds, but the `int`
counters wrap to `count = 131072`, `total = 131073` and `cellularAutomata` writes `0`. -/
theorem outOfBounds_border_fails :
    ((6004799503160661 / 18014398509481984 : ℚ) * (((2 * 1 + 1) ^ 2 : Int) : ℚ) <
        ((specOutOfBoundsCount 3 3 1 0 1 : Int) : ℚ) ∧
      getCell (cellularAutomata [[0, 0, 0], [0, 0, 0], [0, 0, 0]] 3 3 1
        (6004799503160661 / 18014398509481984)) 0 1 = 0) ∧
    ((1 - 1 / 2 ^ 30 : ℚ) * (((2 * 32768 + 1) ^ 2 : Int) : ℚ) <
        ((specOutOfBoundsCount 1 1 32768 0 0 : Int) : ℚ) ∧
      getCell (cellularAutomata [[0]] 1 1 32768 (1 - 1 / 2 ^ 30)) 0 0 = 0) := by
  refine ⟨⟨?_, ?_⟩, ⟨?_, ?_⟩⟩
  · have h3 : specOutOfBoundsCount 3 3 1 0 1 = 3 := by
      have r : forRange (-1) (1 + 1) = [-1, 0, 1] := by decide
      unfold specOutOfBoundsCount
      rw [Finset.sum_product]
      simp only [sum_Icc_eq, r]
      decide
    rw [h3]
    norm_num
  · rw [getCell_cellularAutomata (by decide) 1 _ (by decide) (by decide) (by decide)
      (by decide)]
    exact cellValue_rounding_tie
  · rw [specOutOfBoundsCount_single (by decide)]
    norm_num
  · rw [getCell_cellularAutomata (by decide) 32768 _ (by decide) (by decide) (by decide)
      (by decide)]
    exact cellValue_overflow_positive

/-- C15 (amended): out-of-bounds neighbours act as walls.  On a grid of `H` rows of `W`
binary cells and for `R ≥ 0` with `(2R+1)² < 2^31`, a cell for which the quotient of the
number of out-of-bounds offsets of its window by `(2R+1)²`, rounded to binary64, exceeds
`U` is `1` after the pass whatever the cells contain, for `cellularAutomata` and for
`cellularAutomataInPlace`; in particular with `R = 1` and `U = 1/2` the four corner
cells of every grid with `H, W ≥ 1` are `1` after the pass. -/
theorem outOfBounds_closes_border (m : Map) (W H R : Int) (U : ℚ) (hm : WellFormed W H m)
    (hR : 0 ≤ R) (hbound : (2 * R + 1) ^ 2 < 2 ^ 31) :
    (∀ x y : Int, InGrid W H x y →
      roundBinary64 ((specOutOfBoundsCount W H R x y : ℚ) / (((2 * R + 1) ^ 2 : Int) : ℚ))
        > U →
      getCell (cellularAutomata m W H R U) x y = 1 ∧
      getCell (cellularAutomataInPlace m W H R U) x y = 1) ∧
    (1 ≤ H → 1 ≤ W → ∀ x y : Int, (x = 0 ∨ x = H - 1) → (y = 0 ∨ y = W - 1) →
      getCell (cellularAutomata m W H 1 (1 / 2)) x y = 1 ∧
      getCell (cellularAutomataInPlace m W H 1 (1 / 2)) x y = 1) := by
  have main : ∀ (R' : Int) (U' : ℚ), 0 ≤ R' → (2 * R' + 1) ^ 2 < 2 ^ 31 →
      ∀ x y : Int, InGrid W H x y →
      roundBinary64 ((specOutOfBoundsCount W H R' x y : ℚ) / (((2 * R' + 1) ^ 2 : Int) : ℚ))
        > U' →
      getCell (cellularAutomata m W H R' U') x y = 1 ∧
      getCell (cellularAutomataInPlace m W H R' U') x y = 1 := by
    intro R' U' hR' hb' x y hxy h
    constructor
    · rw [getCell_cellularAutomata hm.1 R' U' hxy.1 hxy.2.1 hxy.2.2.1 hxy.2.2.2]
      exact cellValue_of_outOfBounds hm.2 hR' hb' h
    · obtain ⟨m', hm', he⟩ := getCell_cellularAutomataInPlace hm R' U' hxy
      rw [he]
      exact cellValue_of_outOfBounds hm'.2 hR' hb' h
  refine ⟨main R U hR hbound, ?_⟩
  intro hH hW x y hx hy
  refine main 1 (1 / 2) (by decide) (by decide) x y ?_ ?_
  · unfold InGrid
    omega
  · have h5 := specOutOfBoundsCount_corner (W := W) (H := H) hx hy
    have key := (roundBinary64_ninths_gt_half (specOutOfBoundsCount_nonneg W H 1 x y)).mpr h5
    have e : ((((2 : Int) * 1 + 1) ^ 2 : Int) : ℚ) = 9 := by norm_num
    rw [e]
    exact key

theorem outOfBounds_closes_border_witness :
    getCell (cellularAutomata [[0, 0, 0], [0, 0, 0]] 3 2 1 (1 / 2)) 1 2 = 1 ∧
    getCell (cellularAutomataInPlace [[0, 0, 0], [0, 0, 0]] 3 2 1 (1 / 2)) 1 2 = 1 :=
  (outOfBounds_closes_border [[0, 0, 0], [0, 0, 0]] 3 2 1 (1 / 2) (by decide) (by decide)
    (by decide)).2
    (by decide) (by decide) 1 2 (by decide) (by decide)

/-! ## The carver only turns cells on -/

theorem getCell_setCell_cases (m : Map) (x y v x' y' : Int) :
    getCell (setCell m x y v) x' y' = v ∨
      getCell (setCell m x y v) x' y' = getCell m x' y' := by
  by_cases hsame : x' = x ∧ y' = y
  · obtain ⟨rfl, rfl⟩ := hsame
    by_cases h0 : 0 ≤ x' ∧ 0 ≤ y'
    · by_cases hxl : x'.toNat < m.length
      · by_cases hyl : y'.toNat < (m[x'.toNat]).length
        · left
          unfold getCell setCell
          simp only [h0, and_self, if_true]
          simp [List.getD_eq_getElem?_getD, List.getElem?_set, hxl, hyl]
        · right
          have e : setCell m x' y' v = m := by
            unfold setCell
            rw [if_pos h0, List.getD_eq_getElem _ _ hxl,
              List.set_eq_of_length_le (l := m[x'.toNat]) (by omega)]
            exact list_set_self _ _ hxl
          rw [e]
      · right
        have e : setCell m x' y' v = m := by
          unfold setCell
          rw [if_pos h0]
          exact List.set_eq_of_length_le (by omega)
        rw [e]
    · right
      have e : setCell m x' y' v = m := by
        unfold setCell
        rw [if_neg h0]
      rw [e]
  · right
    apply getCell_setCell_other
    by_contra hc
    push_neg at hc
    exact hsame hc

/-- C16: `drunkAgent` only ever turns cells on.  For a well-formed input grid, every
parameter choice and every sequence of draws, every cell that is `1` in the input grid
is `1` in the returned grid, and every cell whose value differs between the two is `0`
in the input and `1` in the output.  (The input grid is a value the function receives and
copies; the returned grid is a separate result.) -/
theorem drunkAgent_only_turns_on (m : Map) (P : Params) (agentX agentY : Int) (rng : Rng)
    (hm : WellFormed P.W P.H m) :
    (∀ x y : Int, getCell m x y = 1 →
      getCell (drunkAgent m P.W P.H P.J P.I P.roomSizeX P.roomSizeY P.probGenerateRoom
        P.probIncreaseRoom P.probChangeDirection P.probIncreaseChange
        agentX agentY rng).newMap x y = 1) ∧
    (∀ x y : Int,
      getCell (drunkAgent m P.W P.H P.J P.I P.roomSizeX P.roomSizeY P.probGenerateRoom
        P.probIncreaseRoom P.probChangeDirection P.probIncreaseChange
        agentX agentY rng).newMap x y ≠ getCell m x y →
      getCell m x y = 0 ∧
      getCell (drunkAgent m P.W P.H P.J P.I P.roomSizeX P.roomSizeY P.probGenerateRoom
        P.probIncreaseRoom P.probChangeDirection P.probIncreaseChange
        agentX agentY rng).newMap x y = 1) := by
  have key := drunkAgent_map
    (fun a : Map => ∀ x y : Int, getCell a x y = getCell m x y ∨ getCell a x y = 1)
    (fun a x y ha x' y' => by
      rcases getCell_setCell_cases a x y 1 x' y' with h | h
      · exact Or.inr h
      · rw [h]
        exact ha x' y')
    m P.W P.H P.J P.I P.roomSizeX P.roomSizeY P.probGenerateRoom
    P.probIncreaseRoom P.probChangeDirection P.probIncreaseChange agentX agentY rng
    (fun x y => Or.inl rfl)
  constructor
  · intro x y h1
    rcases key x y with h | h
    · rw [h, h1]
    · exact h
  · intro x y hne
    rcases key x y with h | h
    · exact absurd h hne
    · refine ⟨?_, h⟩
      rcases getCell_binary hm.2 x y with h0 | h0
      · exact h0
      · exact absurd (h.trans h0.symm) hne

theorem drunkAgent_only_turns_on_witness :
    getCell (drunkAgent [[0, 1, 0], [1, 0, 0]] 3 2 2 3 2 2 (1 / 2) (1 / 4) (1 / 2) (1 / 4)
      0 0 (fun n => ⟨n, 3, 1 / 3⟩)).newMap 1 0 = 1 :=
  (drunkAgent_only_turns_on [[0, 1, 0], [1, 0, 0]] ⟨3, 2, 2, 3, 2, 2, 1 / 2, 1 / 4, 1 / 2, 1 / 4⟩
    0 0 (fun n => ⟨n, 3, 1 / 3⟩) (by decide)).1 1 0 (by decide)

/-! ## The room stamp -/

theorem newMap_foldl_writeOne (x : Int) (ys : List Int) (s : AgentState) :
    (ys.foldl (fun a y => writeOne a x y) s).newMap =
      ys.foldl (fun m y => setCell m x y 1) s.newMap := by
  induction ys generalizing s with
  | nil => rfl
  | cons y t ih =>
    rw [List.foldl_cons, List.foldl_cons, ih]
    rfl

theorem newMap_foldl_rows (xs ys : List Int) (s : AgentState) :
    (xs.foldl (fun a x => ys.foldl (fun a y => writeOne a x y) a) s).newMap =
      xs.foldl (fun m x => ys.foldl (fun m y => setCell m x y 1) m) s.newMap := by
  induction xs generalizing s with
  | nil => rfl
  | cons x t ih =>
    rw [List.foldl_cons, List.foldl_cons, ih, newMap_foldl_writeOne]

theorem getCell_stampRoom (P : Params) (s : AgentState) (hd : HasDims P.W P.H s.newMap)
    (x y : Int) :
    getCell (stampRoom P s).newMap x y =
      if max 0 (s.agentX - Int.tdiv P.roomSizeX 2) ≤ x ∧
          x < min P.H (max 0 (s.agentX - Int.tdiv P.roomSizeX 2) + P.roomSizeX) ∧
          max 0 (s.agentY - Int.tdiv P.roomSizeY 2) ≤ y ∧
          y < min P.W (max 0 (s.agentY - Int.tdiv P.roomSizeY 2) + P.roomSizeY)
      then 1 else getCell s.newMap x y := by
  unfold stampRoom
  simp only
  rw [newMap_foldl_rows]
  rw [getCell_gridLoop (fun _ _ => 1) _ (fun a ha => by rw [mem_forRange] at ha; omega) _
    (fun b hb => by rw [mem_forRange] at hb; omega) s.newMap hd]
  simp only [mem_forRange]
  by_cases h : max 0 (s.agentX - Int.tdiv P.roomSizeX 2) ≤ x ∧
      x < min P.H (max 0 (s.agentX - Int.tdiv P.roomSizeX 2) + P.roomSizeX) ∧
      max 0 (s.agentY - Int.tdiv P.roomSizeY 2) ≤ y ∧
      y < min P.W (max 0 (s.agentY - Int.tdiv P.roomSizeY 2) + P.roomSizeY)
  · rw [if_pos h, if_pos ⟨⟨h.1, h.2.1⟩, ⟨h.2.2.1, h.2.2.2⟩⟩]
  · rw [if_neg h, if_neg (fun hc => h ⟨hc.1.1, hc.1.2, hc.2.1, hc.2.2⟩)]

theorem tdiv_two_bounds {a : Int} (h : 1 ≤ a) : 0 ≤ Int.tdiv a 2 ∧ Int.tdiv a 2 < a := by
  rw [Int.tdiv_eq_ediv (by omega) (by decide)]
  omega

/-- C14: when `drunkAgent` stamps a room with the agent at an in-bounds cell, on a grid
of `H` rows of `W` cells, the map after the stamp is `1` exactly on the cells `(x, y)`
with `rx ≤ x < rxe` and `ry ≤ y < rye`, where `rx = max(0, agentX - roomSizeX/2)`,
`rxe = min(H, rx + roomSizeX)`, `ry = max(0, agentY - roomSizeY/2)`,
`rye = min(W, ry + roomSizeY)` (truncating division), and keeps its value on every other
cell; the rectangle spans at most `roomSizeX` rows and `roomSizeY` columns and, when
`roomSizeX ≥ 1` and `roomSizeY ≥ 1`, contains the agent's own cell.  The room statement
of an inner step whose draw is below `roomProb` leaves exactly that map. -/
theorem stampRoom_rectangle (P : Params) (rng : Rng) (s : AgentState)
    (hd : HasDims P.W P.H s.newMap) (ha : InGrid P.W P.H s.agentX s.agentY) :
    let rx := max 0 (s.agentX - Int.tdiv P.roomSizeX 2)
    let ry := max 0 (s.agentY - Int.tdiv P.roomSizeY 2)
    let rxe := min P.H (rx + P.roomSizeX)
    let rye := min P.W (ry + P.roomSizeY)
    (∀ x y : Int, getCell (stampRoom P s).newMap x y =
      if rx ≤ x ∧ x < rxe ∧ ry ≤ y ∧ y < rye then 1 else getCell s.newMap x y) ∧
    ((rng s.k).prob < s.roomProb → (roomStep P rng s).newMap = (stampRoom P s).newMap) ∧
    (rxe - rx ≤ P.roomSizeX ∧ rye - ry ≤ P.roomSizeY) ∧
    ((forRange rx rxe).length ≤ P.roomSizeX.toNat ∧
      (forRange ry rye).length ≤ P.roomSizeY.toNat) ∧
    (1 ≤ P.roomSizeX → 1 ≤ P.roomSizeY →
      rx ≤ s.agentX ∧ s.agentX < rxe ∧ ry ≤ s.agentY ∧ s.agentY < rye) := by
  intro rx ry rxe rye
  refine ⟨getCell_stampRoom P s hd, ?_, ⟨by omega, by omega⟩, ⟨?_, ?_⟩, ?_⟩
  · intro hdraw
    unfold roomStep
    rw [if_pos hdraw]
  · rw [length_forRange]
    omega
  · rw [length_forRange]
    omega
  · intro hx hy
    have bx := tdiv_two_bounds hx
    have by' := tdiv_two_bounds hy
    obtain ⟨a1, a2, a3, a4⟩ := ha
    refine ⟨?_, ?_, ?_, ?_⟩ <;> omega

theorem stampRoom_rectangle_witness :
    getCell (stampRoom ⟨20, 10, 5, 10, 5, 3, 1 / 10, 1 / 20, 1 / 5, 3 / 100⟩
      ⟨List.replicate 10 (List.replicate 20 0), 0, 19, 0, 0, 0, 1, [], []⟩).newMap 2 19 =
      (if max 0 (0 - Int.tdiv 5 2) ≤ (2 : Int) ∧
          (2 : Int) < min 10 (max 0 (0 - Int.tdiv 5 2) + 5) ∧
          max 0 (19 - Int.tdiv 3 2) ≤ (19 : Int) ∧
          (19 : Int) < min 20 (max 0 (19 - Int.tdiv 3 2) + 3)
        then 1 else getCell (List.replicate 10 (List.replicate 20 0)) 2 19) :=
  (stampRoom_rectangle ⟨20, 10, 5, 10, 5, 3, 1 / 10, 1 / 20, 1 / 5, 3 / 100⟩
    (fun n => ⟨n, 3, 1 / 3⟩)
    ⟨List.replicate 10 (List.replicate 20 0), 0, 19, 0, 0, 0, 1, [], []⟩
    (by decide) (by decide)).1 2 19

/-! ## The carver: probabilities -/

theorem stampRoom_probs (P : Params) (s : AgentState) :
    (stampRoom P s).roomProb = s.roomProb ∧ (stampRoom P s).dirProb = s.dirProb ∧
    (stampRoom P s).k = s.k := by
  unfold stampRoom
  refine foldl_preserves
    (fun a : AgentState => a.roomProb = s.roomProb ∧ a.dirProb = s.dirProb ∧ a.k = s.k)
    _ _ s ⟨rfl, rfl, rfl⟩ (fun a x _ ha => ?_)
  exact foldl_preserves
    (fun a : AgentState => a.roomProb = s.roomProb ∧ a.dirProb = s.dirProb ∧ a.k = s.k)
    (fun a y => writeOne a x y) _ a ha (fun _ _ _ hb => hb)

theorem markStep_probs (P : Params) (s : AgentState) :
    (markStep P s).roomProb = s.roomProb ∧ (markStep P s).dirProb = s.dirProb ∧
    (markStep P s).k = s.k := by
  unfold markStep
  split <;> exact ⟨rfl, rfl, rfl⟩

theorem roomStep_probs (P : Params) (rng : Rng) (s : AgentState) :
    (roomStep P rng s).roomProb =
      (if (rng s.k).prob < s.roomProb then P.probGenerateRoom
        else min 1 (s.roomProb + P.probIncreaseRoom)) ∧
    (roomStep P rng s).dirProb = s.dirProb ∧ (roomStep P rng s).k = s.k + 1 := by
  unfold roomStep
  split
  · exact ⟨rfl, (stampRoom_probs P s).2.1, rfl⟩
  · exact ⟨rfl, rfl, rfl⟩

theorem dirStep_probs (P : Params) (rng : Rng) (s : AgentState) :
    (dirStep P rng s).roomProb = s.roomProb ∧
    (dirStep P rng s).dirProb =
      (if (rng s.k).prob < s.dirProb then P.probChangeDirection
        else min 1 (s.dirProb + P.probIncreaseChange)) := by
  unfold dirStep
  split <;> exact ⟨rfl, rfl⟩

theorem moveStep_probs (P : Params) (rng : Rng) (s : AgentState) :
    (moveStep P rng s).1.roomProb = s.roomProb ∧ (moveStep P rng s).1.dirProb = s.dirProb := by
  unfold moveStep
  simp only
  split <;> exact ⟨rfl, rfl⟩

theorem roomProb_innerStep (P : Params) (rng : Rng) (s : AgentState) :
    (innerStep P rng s).1.roomProb =
      if (rng s.k).prob < s.roomProb then P.probGenerateRoom
        else min 1 (s.roomProb + P.probIncreaseRoom) := by
  unfold innerStep
  simp only
  rw [(moveStep_probs P rng _).1, (dirStep_probs P rng _).1, (roomStep_probs P rng _).1,
    (markStep_probs P _).1, (markStep_probs P _).2.2]

theorem dirProb_innerStep (P : Params) (rng : Rng) (s : AgentState) :
    (innerStep P rng s).1.dirProb =
      if (rng (s.k + 1)).prob < s.dirProb then P.probChangeDirection
        else min 1 (s.dirProb + P.probIncreaseChange) := by
  unfold innerStep
  simp only
  rw [(moveStep_probs P rng _).2, (dirStep_probs P rng _).2, (roomStep_probs P rng _).2.1,
    (roomStep_probs P rng _).2.2, (markStep_probs P _).2.1, (markStep_probs P _).2.2]

theorem probsInRange_innerStep (P : Params) (rng : Rng)
    (hr1 : P.probGenerateRoom ≤ 1) (hri : 0 ≤ P.probIncreaseRoom)
    (hd1 : P.probChangeDirection ≤ 1) (hdi : 0 ≤ P.probIncreaseChange)
    (s : AgentState) (hs : ProbsInRange P s) : ProbsInRange P (innerStep P rng s).1 := by
  obtain ⟨⟨a1, a2⟩, ⟨b1, b2⟩⟩ := hs
  unfold ProbsInRange
  rw [roomProb_innerStep, dirProb_innerStep]
  refine ⟨?_, ?_⟩
  · split
    · exact ⟨le_refl _, hr1⟩
    · exact ⟨le_min hr1 (by linarith), min_le_left _ _⟩
  · split
    · exact ⟨le_refl _, hd1⟩
    · exact ⟨le_min hd1 (by linarith), min_le_left _ _⟩

/-- C12: after an inner step of `drunkAgent`, `roomProb` is the base value
`probGenerateRoom` if the step's room draw was below `roomProb` (a room was stamped) and
`min(1, roomProb + probIncreaseRoom)` otherwise; likewise `dirProb` with
`probChangeDirection`, `probIncreaseChange` and the direction-change draw.  Consequently,
when each base value is in `[0, 1]` and each increment is `≥ 0`, both probabilities lie
in `[base, 1]` at the start of the walk, after every inner step and at the end of the
call (exact rationals). -/
theorem probabilities_update (m : Map) (P : Params) (agentX agentY : Int) (rng : Rng)
    (hr0 : 0 ≤ P.probGenerateRoom) (hr1 : P.probGenerateRoom ≤ 1)
    (hri : 0 ≤ P.probIncreaseRoom)
    (hd0 : 0 ≤ P.probChangeDirection) (hd1 : P.probChangeDirection ≤ 1)
    (hdi : 0 ≤ P.probIncreaseChange) :
    (∀ s : AgentState, (innerStep P rng s).1.roomProb =
      if (rng s.k).prob < s.roomProb then P.probGenerateRoom
        else min 1 (s.roomProb + P.probIncreaseRoom)) ∧
    (∀ s : AgentState, (rng s.k).prob < s.roomProb →
      (roomStep P rng s).newMap = (stampRoom P s).newMap ∧
      (roomStep P rng s).roomProb = P.probGenerateRoom) ∧
    (∀ s : AgentState, ¬ (rng s.k).prob < s.roomProb →
      (roomStep P rng s).newMap = s.newMap ∧ (roomStep P rng s).writes = s.writes ∧
      (roomStep P rng s).roomProb = min 1 (s.roomProb + P.probIncreaseRoom)) ∧
    (∀ s : AgentState, (innerStep P rng s).1.dirProb =
      if (rng (s.k + 1)).prob < s.dirProb then P.probChangeDirection
        else min 1 (s.dirProb + P.probIncreaseChange)) ∧
    ProbsInRange P (initAgent m P agentX agentY rng) ∧
    (∀ s : AgentState, ProbsInRange P s → ProbsInRange P (innerStep P rng s).1) ∧
    ProbsInRange P
      (drunkAgent m P.W P.H P.J P.I P.roomSizeX P.roomSizeY P.probGenerateRoom
        P.probIncreaseRoom P.probChangeDirection P.probIncreaseChange agentX agentY rng) := by
  have _ := hr0
  have _ := hd0
  have hinit : ProbsInRange P (initAgent m P agentX agentY rng) := by
    unfold initAgent ProbsInRange
    split <;> exact ⟨⟨le_refl _, hr1⟩, ⟨le_refl _, hd1⟩⟩
  have hstep := probsInRange_innerStep P rng hr1 hri hd1 hdi
  refine ⟨roomProb_innerStep P rng, ?_, ?_, dirProb_innerStep P rng, hinit, hstep, ?_⟩
  · intro s hdraw
    unfold roomStep
    rw [if_pos hdraw]
    exact ⟨rfl, rfl⟩
  · intro s hdraw
    unfold roomStep
    rw [if_neg hdraw]
    exact ⟨rfl, rfl, rfl⟩
  · rw [drunkAgent_eq]
    exact outerLoop_preserves P rng (ProbsInRange P) hstep _ _ hinit

theorem probabilities_update_witness :
    ProbsInRange ⟨20, 10, 5, 10, 5, 3, 1 / 10, 1 / 20, 1 / 5, 3 / 100⟩
      (drunkAgent (List.replicate 10 (List.replicate 20 0)) 20 10 5 10 5 3
        (1 / 10) (1 / 20) (1 / 5) (3 / 100) 5 10 (fun n => ⟨n, 3, 1 / 2⟩)) :=
  (probabilities_update (List.replicate 10 (List.replicate 20 0))
    ⟨20, 10, 5, 10, 5, 3, 1 / 10, 1 / 20, 1 / 5, 3 / 100⟩ 5 10 (fun n => ⟨n, 3, 1 / 2⟩)
    (by norm_num) (by norm_num) (by norm_num) (by norm_num) (by norm_num)
    (by norm_num)).2.2.2.2.2.2

/-! ## The smoother with a negative radius -/

theorem natAbs_unit_offset (d : Fin 4) : Int.natAbs (dx d) + Int.natAbs (dy d) = 1 := by
  revert d
  decide

theorem innerStep_distance (P : Params) (rng : Rng) (s : AgentState) :
    Int.natAbs ((innerStep P rng s).1.agentX - s.agentX) +
      Int.natAbs ((innerStep P rng s).1.agentY - s.agentY) ≤ 1 := by
  have hx : (dirStep P rng (roomStep P rng
      (markStep P { s with visited := (s.agentX, s.agentY) :: s.visited }))).agentX
        = s.agentX := by
    rw [(dirStep_frame P rng _).1, (roomStep_frame P rng _).1, (markStep_frame P _).1]
  have hy : (dirStep P rng (roomStep P rng
      (markStep P { s with visited := (s.agentX, s.agentY) :: s.visited }))).agentY
        = s.agentY := by
    rw [(dirStep_frame P rng _).2.1, (roomStep_frame P rng _).2.1, (markStep_frame P _).2.1]
  have hstep : innerStep P rng s = moveStep P rng (dirStep P rng (roomStep P rng
      (markStep P { s with visited := (s.agentX, s.agentY) :: s.visited }))) := rfl
  rw [hstep]
  cases hb : outOfBounds P.W P.H
      ((dirStep P rng (roomStep P rng
        (markStep P { s with visited := (s.agentX, s.agentY) :: s.visited }))).agentX +
        dx (dirStep P rng (roomStep P rng
          (markStep P { s with visited := (s.agentX, s.agentY) :: s.visited }))).dir)
      ((dirStep P rng (roomStep P rng
        (markStep P { s with visited := (s.agentX, s.agentY) :: s.visited }))).agentY +
        dy (dirStep P rng (roomStep P rng
          (markStep P { s with visited := (s.agentX, s.agentY) :: s.visited }))).dir)
  · obtain ⟨_, h1, h2⟩ := moveStep_move P rng _ hb
    rw [h1, h2, hx, hy]
    have := natAbs_unit_offset (dirStep P rng (roomStep P rng
      (markStep P { s with visited := (s.agentX, s.agentY) :: s.visited }))).dir
    simp only [add_sub_cancel_left]
    omega
  · obtain ⟨_, h1, h2⟩ := moveStep_break P rng _ hb
    rw [h1, h2, hx, hy]
    simp

theorem innerLoop_bounded (P : Params) (rng : Rng) (n : Nat) (s : AgentState) :
    Int.natAbs ((innerLoop P rng n s).agentX - s.agentX) +
        Int.natAbs ((innerLoop P rng n s).agentY - s.agentY) + s.visited.length ≤
      (innerLoop P rng n s).visited.length ∧
    (innerLoop P rng n s).visited.length ≤ s.visited.length + n := by
  induction n generalizing s with
  | zero =>
    unfold innerLoop
    simp
  | succ n ih =>
    have hd := innerStep_distance P rng s
    have hv := congrArg List.length (visited_innerStep P rng s)
    rw [List.length_cons] at hv
    unfold innerLoop
    simp only
    split
    · omega
    · have h := ih (innerStep P rng s).1
      omega

theorem outerLoop_bounded (P : Params) (rng : Rng) (j : Nat) (s : AgentState) :
    Int.natAbs ((outerLoop P rng j s).agentX - s.agentX) +
        Int.natAbs ((outerLoop P rng j s).agentY - s.agentY) + s.visited.length ≤
      (outerLoop P rng j s).visited.length ∧
    (outerLoop P rng j s).visited.length ≤ s.visited.length + j * P.I.toNat := by
  induction j generalizing s with
  | zero =>
    unfold outerLoop
    simp
  | succ j ih =>
    have h1 := innerLoop_bounded P rng P.I.toNat s
    have h2 := ih (innerLoop P rng P.I.toNat s)
    unfold outerLoop
    have e : (j + 1) * P.I.toNat = j * P.I.toNat + P.I.toNat := by ring
    rw [e]
    omega

theorem outerLoop_no_inner (P : Params) (rng : Rng) (hI : P.I.toNat = 0) (j : Nat)
    (s : AgentState) : outerLoop P rng j s = s := by
  induction j generalizing s with
  | zero => rfl
  | succ j ih =>
    unfold outerLoop
    rw [hI]
    exact ih s

theorem initAgent_of_inGrid (m : Map) (P : Params) {agentX agentY : Int} (rng : Rng)
    (h : InGrid P.W P.H agentX agentY) :
    (initAgent m P agentX agentY rng).agentX = agentX ∧
    (initAgent m P agentX agentY rng).agentY = agentY := by
  have hnot : outOfBounds P.W P.H agentX agentY = false :=
    (outOfBounds_eq_false_iff _ _ _ _).mpr h
  unfold initAgent
  rw [hnot]
  exact ⟨rfl, rfl⟩

theorem newMap_initAgent (m : Map) (P : Params) (agentX agentY : Int) (rng : Rng) :
    (initAgent m P agentX agentY rng).newMap = m ∧
    (initAgent m P agentX agentY rng).visited = [] := by
  unfold initAgent
  split <;> exact ⟨rfl, rfl⟩

/-- C19: the walk of `drunkAgent` is bounded.  For `W, H > 0` and every sequence of
draws, at most `J · I` inner steps are executed (none when `J ≤ 0` or `I ≤ 0`), every
inner step moves the agent by at most one cell, and the final position is within
Manhattan distance of the number of executed steps, hence for `J, I ≥ 0` within `J · I`,
of the position the walk starts from, which is the incoming position when that is in
bounds.  When `J ≤ 0` or `I ≤ 0` the returned grid equals the input grid and the agent
stays at the starting position. -/
theorem drunkAgent_walk_bounded (m : Map) (P : Params) (agentX agentY : Int) (rng : Rng)
    (hW : 0 < P.W) (hH : 0 < P.H) :
    (drunkAgent m P.W P.H P.J P.I P.roomSizeX P.roomSizeY P.probGenerateRoom
        P.probIncreaseRoom P.probChangeDirection P.probIncreaseChange
        agentX agentY rng).visited.length ≤ P.J.toNat * P.I.toNat ∧
    (∀ s : AgentState,
      (innerStep P rng s).1.visited.length = s.visited.length + 1 ∧
      Int.natAbs ((innerStep P rng s).1.agentX - s.agentX) +
        Int.natAbs ((innerStep P rng s).1.agentY - s.agentY) ≤ 1) ∧
    Int.natAbs ((drunkAgent m P.W P.H P.J P.I P.roomSizeX P.roomSizeY P.probGenerateRoom
        P.probIncreaseRoom P.probChangeDirection P.probIncreaseChange
        agentX agentY rng).agentX - (initAgent m P agentX agentY rng).agentX) +
      Int.natAbs ((drunkAgent m P.W P.H P.J P.I P.roomSizeX P.roomSizeY P.probGenerateRoom
        P.probIncreaseRoom P.probChangeDirection P.probIncreaseChange
        agentX agentY rng).agentY - (initAgent m P agentX agentY rng).agentY) ≤
      (drunkAgent m P.W P.H P.J P.I P.roomSizeX P.roomSizeY P.probGenerateRoom
        P.probIncreaseRoom P.probChangeDirection P.probIncreaseChange
        agentX agentY rng).visited.length ∧
    (0 ≤ P.J → 0 ≤ P.I →
      ((Int.natAbs ((drunkAgent m P.W P.H P.J P.I P.roomSizeX P.roomSizeY P.probGenerateRoom
        P.probIncreaseRoom P.probChangeDirection P.probIncreaseChange
        agentX agentY rng).agentX - (initAgent m P agentX agentY rng).agentX) +
      Int.natAbs ((drunkAgent m P.W P.H P.J P.I P.roomSizeX P.roomSizeY P.probGenerateRoom
        P.probIncreaseRoom P.probChangeDirection P.probIncreaseChange
        agentX agentY rng).agentY - (initAgent m P agentX agentY rng).agentY) : Nat) : Int) ≤
      P.J * P.I) ∧
    (InGrid P.W P.H agentX agentY →
      (initAgent m P agentX agentY rng).agentX = agentX ∧
      (initAgent m P agentX agentY rng).agentY = agentY) ∧
    (P.J ≤ 0 ∨ P.I ≤ 0 →
      (drunkAgent m P.W P.H P.J P.I P.roomSizeX P.roomSizeY P.probGenerateRoom
        P.probIncreaseRoom P.probChangeDirection P.probIncreaseChange
        agentX agentY rng).newMap = m ∧
      (drunkAgent m P.W P.H P.J P.I P.roomSizeX P.roomSizeY P.probGenerateRoom
        P.probIncreaseRoom P.probChangeDirection P.probIncreaseChange
        agentX agentY rng).visited = [] ∧
      (drunkAgent m P.W P.H P.J P.I P.roomSizeX P.roomSizeY P.probGenerateRoom
        P.probIncreaseRoom P.probChangeDirection P.probIncreaseChange
        agentX agentY rng).agentX = (initAgent m P agentX agentY rng).agentX ∧
      (drunkAgent m P.W P.H P.J P.I P.roomSizeX P.roomSizeY P.probGenerateRoom
        P.probIncreaseRoom P.probChangeDirection P.probIncreaseChange
        agentX agentY rng).agentY = (initAgent m P agentX agentY rng).agentY) := by
  have _ := hW
  have _ := hH
  rw [drunkAgent_eq]
  have hb := outerLoop_bounded P rng P.J.toNat (initAgent m P agentX agentY rng)
  have hi := newMap_initAgent m P agentX agentY rng
  rw [hi.2, List.length_nil] at hb
  refine ⟨by omega, ?_, by omega, ?_, fun h => initAgent_of_inGrid m P rng h, ?_⟩
  · intro s
    refine ⟨?_, innerStep_distance P rng s⟩
    rw [visited_innerStep, List.length_cons]
  · intro hJ hI
    have e : P.J * P.I = ((P.J.toNat * P.I.toNat : Nat) : Int) := by
      rw [Nat.cast_mul, Int.toNat_of_nonneg hJ, Int.toNat_of_nonneg hI]
    rw [e]
    exact_mod_cast (by omega : _ ≤ P.J.toNat * P.I.toNat)
  · intro h
    have hsame : outerLoop P rng P.J.toNat (initAgent m P agentX agentY rng) =
        initAgent m P agentX agentY rng := by
      rcases h with h | h
      · have : P.J.toNat = 0 := by omega
        rw [this]
        rfl
      · exact outerLoop_no_inner P rng (by omega) _ _
    rw [hsame]
    exact ⟨hi.1, hi.2, rfl, rfl⟩

theorem drunkAgent_walk_bounded_witness :
    (drunkAgent (List.replicate 10 (List.replicate 20 0)) 20 10 5 10 5 3
      (1 / 10) (1 / 20) (1 / 5) (3 / 100) 5 10 (fun n => ⟨n, 3, 1 / 2⟩)).visited.length ≤
      (5 : Int).toNat * (10 : Int).toNat ∧
    (drunkAgent (List.replicate 10 (List.replicate 20 0)) 20 10 0 10 5 3
      (1 / 10) (1 / 20) (1 / 5) (3 / 100) 5 10 (fun n => ⟨n, 3, 1 / 2⟩)).newMap =
      List.replicate 10 (List.replicate 20 0) :=
  ⟨(drunkAgent_walk_bounded (List.replicate 10 (List.replicate 20 0))
      ⟨20, 10, 5, 10, 5, 3, 1 / 10, 1 / 20, 1 / 5, 3 / 100⟩ 5 10 (fun n => ⟨n, 3, 1 / 2⟩)
      (by decide) (by decide)).1,
    ((drunkAgent_walk_bounded (List.replicate 10 (List.replicate 20 0))
      ⟨20, 10, 0, 10, 5, 3, 1 / 10, 1 / 20, 1 / 5, 3 / 100⟩ 5 10 (fun n => ⟨n, 3, 1 / 2⟩)
      (by decide) (by decide)).2.2.2.2.2 (Or.inl (by decide))).1⟩

end RuleBasedPCG
